import Mathlib

/-!
# Layer diff export (`image/layer.go`, `cmd/oci-create-layer/main.go`)

A shallow embedding of `CreateLayer`, `Diff` and `exportChanges`, together with
the parts of Go's `path/filepath`, `sort` and `io` packages they call.

A Go `string` is a byte sequence.  It is embedded as a `List Char`, one list
element per byte; the path routines only ever compare a byte with `/` or `.`
and the ordering on strings compares byte values position by position.
-/

namespace ImageTools

/-! ## `path/filepath` (Unix) -/

/-- The test `os.IsPathSeparator(c)` on Unix. -/
def IsPathSeparator (c : Char) : Bool := c == '/'

/-- The test `r == n || os.IsPathSeparator(path[r])` used by `Clean` on the
unread rest `path[r:]` of its input. -/
def isSepOrEnd : List Char → Bool
  | [] => true
  | c :: _ => IsPathSeparator c

/-- The backtracking of `Clean` at a `..` element, started after `out.w--`:
`for out.w > dotdot && !os.IsPathSeparator(out.index(out.w)) { out.w-- }`.
The argument is the current `out.w`, the result the final one. -/
def backtrack (buf : List Char) (dotdot : Nat) : Nat → Nat
  | 0 => 0
  | w + 1 =>
    if dotdot < w + 1 ∧ buf.get? (w + 1) ≠ some '/' then backtrack buf dotdot w
    else w + 1

/-- The step `if rooted && out.w != 1 || !rooted && out.w != 0 {
out.append(Separator) }` of `Clean` in front of a real path element. -/
def addSlash (rooted : Bool) (out : List Char) : List Char :=
  if (rooted = true ∧ out.length ≠ 1) ∨ (rooted = false ∧ out.length ≠ 0) then out ++ ['/']
  else out

/-- The main loop `for r < n { switch ... }` of `filepath.Clean`.  The list
argument is the unread input `path[r:]`, `out` the contents of the output
buffer (`out.w` is its length) and `dotdot` the index where `..` must stop.
The flag is `true` while the inner loop that copies a real path element is
running; that inner loop stops in front of a separator, which the next
iteration of the outer loop then skips, and both steps are taken at once
here. -/
def cleanLoop (rooted : Bool) : Bool → List Char → List Char → Nat → List Char
  | _, [], out, _ => out
  | true, c :: t, out, dotdot =>
    if IsPathSeparator c = true then cleanLoop rooted false t out dotdot
    else cleanLoop rooted true t (out ++ [c]) dotdot
  | false, c :: t, out, dotdot =>
    if IsPathSeparator c = true then
      -- empty path element
      cleanLoop rooted false t out dotdot
    else if c = '.' ∧ isSepOrEnd t = true then
      -- . element
      cleanLoop rooted false t out dotdot
    else
      match t with
      | [] => cleanLoop rooted true [] (addSlash rooted out ++ [c]) dotdot
      | c2 :: t2 =>
        if c = '.' ∧ c2 = '.' ∧ isSepOrEnd t2 = true then
          -- .. element: remove to last separator
          if dotdot < out.length then
            -- can backtrack
            cleanLoop rooted false t2
              (out.take (backtrack out dotdot (out.length - 1))) dotdot
          else if rooted = false then
            -- cannot backtrack, but not rooted, so append .. element
            cleanLoop rooted false t2
              ((if 0 < out.length then out ++ ['/'] else out) ++ ['.', '.'])
              ((if 0 < out.length then out ++ ['/'] else out) ++ ['.', '.']).length
          else
            cleanLoop rooted false t2 out dotdot
        else
          -- real path element: add slash if needed, then copy the element
          cleanLoop rooted true (c2 :: t2) (addSlash rooted out ++ [c]) dotdot

/-- The function `filepath.Clean`. -/
def Clean (path : List Char) : List Char :=
  match path with
  | [] => ['.']
  | c :: t =>
    let out :=
      if IsPathSeparator c = true then cleanLoop true false t ['/'] 1
      else cleanLoop false false (c :: t) [] 0
    -- Turn empty string into "."
    if out.length = 0 then ['.'] else out

/-- The function `strings.Join`. -/
def stringsJoin (sep : List Char) : List (List Char) → List Char
  | [] => []
  | [e] => e
  | e :: es => e ++ sep ++ stringsJoin sep es

/-- The function `filepath.Join`: the elements from the first non-empty one
on are joined with separators and cleaned. -/
def Join : List (List Char) → List Char
  | [] => []
  | e :: es => if e ≠ [] then Clean (stringsJoin ['/'] (e :: es)) else Join es

/-- The prefix `path[:i+1]` that `filepath.Dir` cleans: `i` is found by
`for i >= 0 && !os.IsPathSeparator(path[i]) { i-- }` from the end. -/
def dirPrefix (path : List Char) : List Char :=
  (path.reverse.dropWhile (fun c => ! IsPathSeparator c)).reverse

/-- The function `filepath.Dir`. -/
def Dir (path : List Char) : List Char := Clean (dirPrefix path)

/-- The function `filepath.Base`. -/
def Base (path : List Char) : List Char :=
  if path = [] then ['.']
  else
    -- Strip trailing slashes.
    let stripped := path.reverse.dropWhile IsPathSeparator
    -- Find the last element
    let last := (stripped.takeWhile (fun c => ! IsPathSeparator c)).reverse
    -- If empty now, it had only slashes.
    if last = [] then ['/'] else last

/-! ## The data model and the functions of `image/layer.go` -/

/-- Go `error` values: the two sentinels of package `io` and any other. -/
inductive Error
  | EOF
  | ErrClosedPipe
  | other (code : Nat)
  deriving DecidableEq

/-- Modelled from the spec: the kind of a `Change`, which is declared in
another file of the package.  The spec gives a change record a kind that is
one of Added, Modified, Deleted; `layer.go` names the last one
`ChangeDelete`. -/
inductive ChangeType
  | ChangeModify
  | ChangeAdd
  | ChangeDelete
  deriving DecidableEq

/-- Modelled from the spec: the type `Change`, which is declared in another
file of the package; `layer.go` reads its fields `Path` and `Kind`.  The spec
gives a change record a path and a kind. -/
structure Change where
  Path : List Char
  Kind : ChangeType
  deriving DecidableEq

/-- The fields of `tar.Header` that `exportChanges` sets; every other field
keeps its zero value.  Times are clock readings. -/
structure Header where
  Name : List Char
  Size : Int
  ModTime : Nat
  AccessTime : Nat
  ChangeTime : Nat
  deriving DecidableEq

/-- The comparison `a < b` of two Go strings: byte-wise lexicographic. -/
def strLess : List Char → List Char → Bool
  | [], [] => false
  | [], _ :: _ => true
  | _ :: _, [] => false
  | a :: as, b :: bs => if a < b then true else if b < a then false else strLess as bs

/-- Modelled from the spec: `changesByPath.Less`, which is declared in another
file of the package.  The spec sorts the changes by path using byte-wise
lexicographic order. -/
def changesByPath.Less (a b : Change) : Bool := strLess a.Path b.Path

/-- The order `sort.Sort` brings the records into: `b` may follow `a` when
`Less(b, a)` is false. -/
def pathLE (a b : Change) : Prop := changesByPath.Less b a = false

instance pathLE.decidable : DecidableRel pathLE :=
  fun a b => inferInstanceAs (Decidable (changesByPath.Less b a = false))

/-- The strict order of the records by path. -/
def pathLT (a b : Change) : Prop := changesByPath.Less a b = true

/-- The call `sort.Sort(changesByPath(changes))`, as an insertion sort.  The
library only promises a sorted permutation (the sort is not stable); for
records with pairwise distinct paths that permutation is unique. -/
def sortSort (changes : List Change) : List Change :=
  changes.insertionSort pathLE

/-- The slice expression `s[1:]`, which panics on the empty string. -/
def sliceFrom1 : List Char → Option (List Char)
  | [] => none
  | _ :: t => some t

/-- The map `SeenFiles` of a `utils.TarAppender`, as an association list from
inode number to entry name. -/
abbrev SeenFiles := List (Nat × List Char)

/-- The library and helper calls made by the goroutine of `exportChanges`, as
functions on a state `ω` of everything outside it: the tar writer with the
pipe below it, the filesystem and the clock.  Every call may fail. -/
structure Lib (ω : Type) where
  /-- The call `time.Now()`. -/
  Now : ω → Nat
  /-- The call `ta.TarWriter.WriteHeader(hdr)`. -/
  WriteHeader : ω → Header → ω × Option Error
  /-- The call `ta.AddTarFile(path, name)`, which also reads and updates
  `ta.SeenFiles`. -/
  AddTarFile : ω → SeenFiles → List Char → List Char → (ω × SeenFiles) × Option Error
  /-- The call `ta.TarWriter.Close()`. -/
  TarClose : ω → ω × Option Error

/-- One call made by the goroutine, with the error it returned. -/
inductive Event
  | WriteHeader (hdr : Header) (err : Option Error)
  | AddTarFile (path name : List Char) (err : Option Error)
  | TarClose (err : Option Error)
  | PipeClose
  deriving DecidableEq

/-- One `logrus.Debugf` line: its format string, the path argument when the
format has one, and the error. -/
structure LogLine where
  format : String
  path : Option (List Char)
  err : Error
  deriving DecidableEq

/-- The state of the goroutine of `exportChanges`: the outside world, the
`SeenFiles` map of its `TarAppender`, what it has called and logged so far,
and the error that the read end of the pipe reports once drained (`none`
while the write end is open). -/
structure ExportState (ω : Type) where
  world : ω
  SeenFiles : SeenFiles
  events : List Event
  logs : List LogLine
  wrerr : Option Error
  deriving DecidableEq

/-- The log after `if err != nil { logrus.Debugf(format, ...) }`. -/
def logIfErr (logs : List LogLine) (format : String) (path : Option (List Char)) :
    Option Error → List LogLine
  | none => logs
  | some e => logs ++ [{ format := format, path := path, err := e }]

/-- The string `whiteOut` computed for a deleted path. -/
def whiteOut (path : List Char) : List Char :=
  let whiteOutDir := Dir path
  let whiteOutBase := Base path
  Join [whiteOutDir, ['.', 'w', 'h', '.'] ++ whiteOutBase]

/-- The body of `for _, change := range changes`; `none` is a run-time panic
of a slice expression. -/
def exportStep {ω : Type} (lib : Lib ω) (dir : List Char) (st : ExportState ω)
    (change : Change) : Option (ExportState ω) :=
  if change.Kind = ChangeType.ChangeDelete then
    let timestamp := lib.Now st.world
    match sliceFrom1 (whiteOut change.Path) with
    | none => none
    | some name =>
      let hdr : Header :=
        { Name := name, Size := 0, ModTime := timestamp, AccessTime := timestamp,
          ChangeTime := timestamp }
      let r := lib.WriteHeader st.world hdr
      some { st with
        world := r.1
        events := st.events ++ [Event.WriteHeader hdr r.2]
        logs := logIfErr st.logs "Can't write whiteout header: %s" none r.2 }
  else
    let path := Join [dir, change.Path]
    match sliceFrom1 change.Path with
    | none => none
    | some name =>
      let r := lib.AddTarFile st.world st.SeenFiles path name
      some { st with
        world := r.1.1
        SeenFiles := r.1.2
        events := st.events ++ [Event.AddTarFile path name r.2]
        logs := logIfErr st.logs "Can't add file %s to tar: %s" (some path) r.2 }

/-- The loop `for _, change := range changes`. -/
def exportLoop {ω : Type} (lib : Lib ω) (dir : List Char) :
    List Change → ExportState ω → Option (ExportState ω)
  | [], st => some st
  | change :: rest, st =>
    match exportStep lib dir st change with
    | none => none
    | some st1 => exportLoop lib dir rest st1

/-- The two closes after the loop: `ta.TarWriter.Close()`, whose error is
logged, and `writer.Close()`, which is `CloseWithError(nil)`: it makes the read
end report `io.EOF` and returns nil. -/
def exportFinish {ω : Type} (lib : Lib ω) (st : ExportState ω) : ExportState ω :=
  let r := lib.TarClose st.world
  { st with
    world := r.1
    events := st.events ++ [Event.TarClose r.2, Event.PipeClose]
    logs := logIfErr st.logs "Can't close layer: %s" none r.2
    wrerr := some Error.EOF }

/-- The goroutine started by `exportChanges`, run to its end from the world
`w`, which holds the fresh pipe and the tar writer on it; `none` is a panic.
The `TarAppender` starts with an empty `SeenFiles` map; its pooled `Buffer`
only serves the copying inside `AddTarFile` and is left out. -/
def exportGoroutine {ω : Type} (lib : Lib ω) (dir : List Char) (changes : List Change)
    (w : ω) : Option (ExportState ω) :=
  let ta : ExportState ω :=
    { world := w, SeenFiles := [], events := [], logs := [], wrerr := none }
  match exportLoop lib dir (sortSort changes) ta with
  | none => none
  | some st => some (exportFinish lib st)

/-- The function `exportChanges`: it returns the read end of the pipe, stood
for by the run of the goroutine that feeds it, and a nil error. -/
def exportChanges {ω : Type} (lib : Lib ω) (dir : List Char) (changes : List Change)
    (w : ω) : Option (ExportState ω) × Option Error :=
  (exportGoroutine lib dir changes w, none)

/-- What `CreateLayer` and `Diff` call besides `exportChanges`. -/
structure Host (ω : Type) where
  lib : Lib ω
  /-- The world in which `exportChanges` creates its pipe and tar writer. -/
  world : ω
  /-- The function `ChangesDirs`, which is in another file of the package. -/
  ChangesDirs : List Char → List Char → Except Error (List Change)
  /-- The error of `os.Create(filename)`. -/
  Create : List Char → Option Error
  /-- The first error of a write to the destination file during `io.Copy`. -/
  destWrite : Option Error

/-- The function `Diff`: a nil stream with the error, or the stream and nil. -/
def Diff {ω : Type} (h : Host ω) (child parent : List Char) :
    Option (Option (ExportState ω)) × Option Error :=
  match h.ChangesDirs child parent with
  | Except.error err => (none, some err)
  | Except.ok changes =>
    match exportChanges h.lib child changes h.world with
    | (_, some err) => (none, some err)
    | (archive, none) => (some archive, none)

/-- The name `filename` that `CreateLayer` passes to `os.Create`. -/
def layerFilename (child dest : List Char) : List Char :=
  if dest ≠ [] then Clean dest else Clean child ++ ['.', 't', 'a', 'r']

/-- The call `io.Copy(f, arch)` on a stream that ends with `wrerr`: the first
error met on either side, where `io.EOF` from the read end is success. -/
def ioCopy (destWrite : Option Error) (wrerr : Option Error) : Option Error :=
  match destWrite with
  | some e => some e
  | none =>
    match wrerr with
    | some Error.EOF => none
    | e => e

/-- The outcome of `CreateLayer`: the file name given to `os.Create` when that
call is reached, and the error returned. -/
structure LayerResult where
  filename : Option (List Char)
  err : Option Error
  deriving DecidableEq

/-- The function `CreateLayer`; `none` is a panic of the export goroutine.
The deferred `arch.Close()` and `f.Close()` run after the result is fixed and
are left out. -/
def CreateLayer {ω : Type} (h : Host ω) (child parent dest : List Char) :
    Option LayerResult :=
  match Diff h child parent with
  | (_, some err) => some { filename := none, err := some err }
  | (none, none) => none
  | (some arch, none) =>
    let filename := layerFilename child dest
    match h.Create filename with
    | some err => some { filename := some filename, err := some err }
    | none =>
      match arch with
      | none => none
      | some st => some { filename := some filename, err := ioCopy h.destWrite st.wrerr }

/-- The value of the flag `--dest` when it is not given. -/
def defaultDest : List Char := []

/-! ## A tar stream that keeps its entries, with `AddTarFile` as the spec describes it -/

/-- The kind of filesystem object a path names. -/
inductive FileKind
  | regular
  | directory
  | symlink
  | device
  deriving DecidableEq

/-- What `stat` reports of a path: the kind of object, its IdentityKey, its
number of hard links, and the content of a regular file. -/
structure FileInfo where
  kind : FileKind
  key : Nat
  nlink : Nat
  content : List Char
  deriving DecidableEq

/-- An entry of the archive: the whiteout of a deleted path, a standard entry
with the metadata and content of the object, or a hardlink entry that refers
to the name of an earlier entry. -/
inductive Entry
  | whiteout (hdr : Header)
  | full (name : List Char) (info : FileInfo)
  | hardlink (name linkname : List Char)
  deriving DecidableEq

/-- A tar stream that keeps every entry written to it, with a clock. -/
structure TarStream where
  clock : Nat
  entries : List Entry
  deriving DecidableEq

/-- The lookup `ta.SeenFiles[key]`. -/
def lookupSeen (key : Nat) : SeenFiles → Option (List Char)
  | [] => none
  | (k, n) :: rest => if k = key then some n else lookupSeen key rest

/-- Modelled from the spec: `TarAppender.AddTarFile`, which is declared in
package `utils`.  The spec resolves the on-disk location and stats it; a
regular file whose IdentityKey has been seen before in this export is emitted
as a hardlink entry referencing the first-seen path, without its content;
anything else is emitted as a standard entry, and the mapping from IdentityKey
to path is recorded for a regular file with more than one hard link; an I/O
error on the file is returned to the caller, which tolerates it. -/
def specAddTarFile (fs : List Char → Option FileInfo) (w : TarStream) (seen : SeenFiles)
    (path name : List Char) : (TarStream × SeenFiles) × Option Error :=
  match fs path with
  | none => ((w, seen), some (Error.other 2))
  | some fi =>
    if fi.kind = FileKind.regular then
      match lookupSeen fi.key seen with
      | some first =>
        (({ w with entries := w.entries ++ [Entry.hardlink name first] }, seen), none)
      | none =>
        (({ w with entries := w.entries ++ [Entry.full name fi] },
          if 1 < fi.nlink then (fi.key, name) :: seen else seen), none)
    else
      (({ w with entries := w.entries ++ [Entry.full name fi] }, seen), none)

/-- The library over a tar stream that keeps its entries and a filesystem
`fs`: headers are written as they come, each write advancing the clock, and
files are added as the spec describes. -/
def specLib (fs : List Char → Option FileInfo) : Lib TarStream :=
  { Now := fun w => w.clock
    WriteHeader := fun w hdr =>
      ({ clock := w.clock + 1, entries := w.entries ++ [Entry.whiteout hdr] }, none)
    AddTarFile := fun w seen path name => specAddTarFile fs w seen path name
    TarClose := fun w => (w, none) }

/-! ## What a run shows -/

/-- The error a call returned. -/
def Event.err : Event → Option Error
  | Event.WriteHeader _ e => e
  | Event.AddTarFile _ _ e => e
  | Event.TarClose e => e
  | Event.PipeClose => none

/-- The `logrus.Debugf` line the goroutine writes after a call: one line with
the error when the call returned one, none otherwise.  The call
`writer.Close()` always returns nil. -/
def Event.logLines : Event → List LogLine
  | Event.WriteHeader _ (some e) =>
    [{ format := "Can't write whiteout header: %s", path := none, err := e }]
  | Event.AddTarFile path _ (some e) =>
    [{ format := "Can't add file %s to tar: %s", path := some path, err := e }]
  | Event.TarClose (some e) => [{ format := "Can't close layer: %s", path := none, err := e }]
  | _ => []

/-- The log lines of a sequence of calls, in order. -/
def logsOf : List Event → List LogLine
  | [] => []
  | ev :: evs => ev.logLines ++ logsOf evs

/-- The entry name a call puts into the archive. -/
def Event.name : Event → Option (List Char)
  | Event.WriteHeader hdr _ => some hdr.Name
  | Event.AddTarFile _ name _ => some name
  | _ => none

/-- The entry name of an `AddTarFile` call. -/
def Event.addedName : Event → Option (List Char)
  | Event.AddTarFile _ name _ => some name
  | _ => none

/-- The names of the entries emitted, in emission order. -/
def emittedNames (evs : List Event) : List (List Char) := evs.filterMap Event.name

/-- The names of the entries emitted for Added and Modified records. -/
def addedNames (evs : List Event) : List (List Char) := evs.filterMap Event.addedName

/-- A list of strings is strictly increasing in byte-wise lexicographic
order. -/
def StrictlyIncreasing (l : List (List Char)) : Prop :=
  l.Sorted (fun a b => strLess a b = true)

instance StrictlyIncreasing.decidable (l : List (List Char)) : Decidable (StrictlyIncreasing l) :=
  inferInstanceAs (Decidable (l.Pairwise (fun a b => strLess a b = true)))

/-- The name C2 gives the entry of a record: the record's path, or the
whiteout name for a Deleted record. -/
def claimedName (c : Change) : List Char :=
  if c.Kind = ChangeType.ChangeDelete then whiteOut c.Path else c.Path

/-- The events of a run, when it does not panic. -/
def eventsOf {ω : Type} (run : Option (ExportState ω)) : Option (List Event) :=
  run.map (fun st => st.events)

/-- The emitted entry names of a run, when it does not panic. -/
def namesOf {ω : Type} (run : Option (ExportState ω)) : Option (List (List Char)) :=
  run.map (fun st => emittedNames st.events)

/-- The terminal state of the stream of a run, when it does not panic. -/
def wrerrOf {ω : Type} (run : Option (ExportState ω)) : Option (Option Error) :=
  run.map (fun st => st.wrerr)

/-- The entries of a run, when it does not panic. -/
def entriesOf (run : Option (ExportState TarStream)) : Option (List Entry) :=
  run.map (fun st => st.world.entries)

/-- The call `ev` is what the loop body does for the record `c`: for a
Deleted record one `WriteHeader` of a zero-size header named `whiteOut[1:]`,
for any other record one `AddTarFile` of the joined path under the name
`change.Path[1:]`. -/
def ProcessedAs (dir : List Char) (c : Change) (ev : Event) : Prop :=
  (c.Kind = ChangeType.ChangeDelete ∧ ∃ hdr err, ev = Event.WriteHeader hdr err ∧
      sliceFrom1 (whiteOut c.Path) = some hdr.Name ∧ hdr.Size = 0) ∨
  (c.Kind ≠ ChangeType.ChangeDelete ∧ ∃ name err,
      ev = Event.AddTarFile (Join [dir, c.Path]) name err ∧ sliceFrom1 c.Path = some name)

/-- A header with its three times erased. -/
def Header.eraseTimes (hdr : Header) : Header :=
  { hdr with ModTime := 0, AccessTime := 0, ChangeTime := 0 }

/-- A call with the times of its header erased. -/
def Event.eraseTimes : Event → Event
  | Event.WriteHeader hdr err => Event.WriteHeader hdr.eraseTimes err
  | ev => ev

/-- An entry with the times of its header erased. -/
def Entry.eraseTimes : Entry → Entry
  | Entry.whiteout hdr => Entry.whiteout hdr.eraseTimes
  | e => e

/-- Two libraries stand for the same outside world seen at two moments: from
worlds related by `R` every call, given the same arguments up to the times in
a header, returns the same error and the same `SeenFiles` and leaves worlds
related by `R`. -/
structure SameOutside {ω1 ω2 : Type} (lib1 : Lib ω1) (lib2 : Lib ω2)
    (R : ω1 → ω2 → Prop) : Prop where
  writeHeader : ∀ w1 w2 h1 h2, R w1 w2 → h1.eraseTimes = h2.eraseTimes →
    R (lib1.WriteHeader w1 h1).1 (lib2.WriteHeader w2 h2).1 ∧
      (lib1.WriteHeader w1 h1).2 = (lib2.WriteHeader w2 h2).2
  addTarFile : ∀ w1 w2 seen path name, R w1 w2 →
    R (lib1.AddTarFile w1 seen path name).1.1 (lib2.AddTarFile w2 seen path name).1.1 ∧
      (lib1.AddTarFile w1 seen path name).1.2 = (lib2.AddTarFile w2 seen path name).1.2 ∧
      (lib1.AddTarFile w1 seen path name).2 = (lib2.AddTarFile w2 seen path name).2
  tarClose : ∀ w1 w2, R w1 w2 →
    R (lib1.TarClose w1).1 (lib2.TarClose w2).1 ∧ (lib1.TarClose w1).2 = (lib2.TarClose w2).2

/-- Two states of the goroutine agree up to the times in whiteout headers. -/
def Related {ω1 ω2 : Type} (R : ω1 → ω2 → Prop) (s1 : ExportState ω1)
    (s2 : ExportState ω2) : Prop :=
  R s1.world s2.world ∧ s1.SeenFiles = s2.SeenFiles ∧
    s1.events.map Event.eraseTimes = s2.events.map Event.eraseTimes ∧
    s1.logs = s2.logs ∧ s1.wrerr = s2.wrerr

/-- Two runs both panic or end in related states. -/
def RelatedRun {ω1 ω2 : Type} (R : ω1 → ω2 → Prop) :
    Option (ExportState ω1) → Option (ExportState ω2) → Prop
  | some s1, some s2 => Related R s1 s2
  | none, none => True
  | _, _ => False

/-- Two tar streams hold the same entries up to the times in whiteout
headers. -/
def sameEntries (w1 w2 : TarStream) : Prop :=
  w1.entries.map Entry.eraseTimes = w2.entries.map Entry.eraseTimes

/-- The entry is a standard entry of a regular file with IdentityKey `k`. -/
def isFullOf (k : Nat) : Entry → Bool
  | Entry.full _ fi => decide (fi.kind = FileKind.regular) && decide (fi.key = k)
  | _ => false

/-- The entry is a hardlink entry that refers to the name `n`. -/
def isLinkTo (n : List Char) : Entry → Bool
  | Entry.hardlink _ l => decide (l = n)
  | _ => false

/-! ## Concrete worlds and inputs -/

/-- A library whose calls follow a script: the world is the number of calls
made so far, which is also what the clock shows, and call number `i` (counted
from 0 over `WriteHeader`, `AddTarFile` and the tar `Close`) returns `f i`. -/
def scriptedLib (f : Nat → Option Error) : Lib Nat :=
  { Now := fun w => w
    WriteHeader := fun w _ => (w + 1, f w)
    AddTarFile := fun w seen _ _ => ((w + 1, seen), f w)
    TarClose := fun w => (w + 1, f w) }

/-- A library in which no call fails. -/
def okLib : Lib Nat := scriptedLib (fun _ => none)

/-- A library for a pipe whose read end is closed once `k` calls were made:
every later call fails with `io.ErrClosedPipe`. -/
def closedAfter (k : Nat) : Lib Nat :=
  scriptedLib (fun i => if k ≤ i then some Error.ErrClosedPipe else none)

/-- Three records, a deleted path on either side of an added one. -/
def closedPipeChanges : List Change :=
  [{ Path := "/a".toList, Kind := ChangeType.ChangeDelete },
   { Path := "/b".toList, Kind := ChangeType.ChangeAdd },
   { Path := "/c".toList, Kind := ChangeType.ChangeDelete }]

/-- The final state of the export of `closedPipeChanges` below `/x` when the
read end of the pipe is closed after the first record. -/
def closedPipeRun : ExportState Nat :=
  { world := 4
    SeenFiles := []
    events :=
      [Event.WriteHeader
        { Name := ".wh.a".toList, Size := 0, ModTime := 0, AccessTime := 0,
          ChangeTime := 0 } none,
       Event.AddTarFile "/x/b".toList "b".toList (some Error.ErrClosedPipe),
       Event.WriteHeader
        { Name := ".wh.c".toList, Size := 0, ModTime := 2, AccessTime := 2,
          ChangeTime := 2 } (some Error.ErrClosedPipe),
       Event.TarClose (some Error.ErrClosedPipe), Event.PipeClose]
    logs :=
      [{ format := "Can't add file %s to tar: %s", path := some "/x/b".toList,
         err := Error.ErrClosedPipe },
       { format := "Can't write whiteout header: %s", path := none,
         err := Error.ErrClosedPipe },
       { format := "Can't close layer: %s", path := none, err := Error.ErrClosedPipe }]
    wrerr := some Error.EOF }

/-- A library in which only `ta.TarWriter.Close()` fails. -/
def failingClose : Lib Nat :=
  { Now := fun w => w
    WriteHeader := fun w _ => (w + 1, none)
    AddTarFile := fun w seen _ _ => ((w + 1, seen), none)
    TarClose := fun w => (w + 1, some (Error.other 7)) }

/-- A host in which change detection finds the one added file `/a`, the
destination file can be created and written, and only the tar `Close`
fails. -/
def failingCloseHost : Host Nat :=
  { lib := failingClose
    world := 0
    ChangesDirs := fun _ _ => Except.ok [{ Path := "/a".toList, Kind := ChangeType.ChangeAdd }]
    Create := fun _ => none
    destWrite := none }

/-- A filesystem below `/x`: `/x/a` and `/x/b` are two names of one regular
file, `/x/d` is a directory, and nothing else exists. -/
def linkedFs (path : List Char) : Option FileInfo :=
  if path = "/x/a".toList ∨ path = "/x/b".toList then
    some { kind := FileKind.regular, key := 7, nlink := 2, content := "x".toList }
  else if path = "/x/d".toList then
    some { kind := FileKind.directory, key := 3, nlink := 2, content := [] }
  else none

/-- What `stat` reports of the linked file of `linkedFs`. -/
def linkedInfo : FileInfo :=
  { kind := FileKind.regular, key := 7, nlink := 2, content := "x".toList }

/-- The changes of the witnesses: the two names of the linked file, the
directory and one deleted path, as a detector may list them. -/
def linkedChanges : List Change :=
  [{ Path := "/b".toList, Kind := ChangeType.ChangeAdd },
   { Path := "/c".toList, Kind := ChangeType.ChangeDelete },
   { Path := "/a".toList, Kind := ChangeType.ChangeModify },
   { Path := "/d".toList, Kind := ChangeType.ChangeAdd }]

/-- The final state of the export of the single Deleted path `/a/b/c` in a
world where nothing fails. -/
def whiteoutRun : ExportState Nat :=
  { world := 2
    SeenFiles := []
    events :=
      [Event.WriteHeader
        { Name := "a/b/.wh.c".toList, Size := 0, ModTime := 0, AccessTime := 0,
          ChangeTime := 0 } none,
       Event.TarClose none, Event.PipeClose]
    logs := []
    wrerr := some Error.EOF }

/-! ## Notions used in the proofs -/

/-- The element starting with `c` and followed by `t` is a real path element. -/
def IsRealElem (c : Char) (t : List Char) : Prop :=
  IsPathSeparator c = false ∧ ¬ (c = '.' ∧ isSepOrEnd t = true) ∧
    ¬ (c = '.' ∧ ∃ t2, t = '.' :: t2 ∧ isSepOrEnd t2 = true)

/-- The output buffer of a rooted `Clean` starts with the root separator and
has no second separator right after it. -/
def RootedOut (out : List Char) : Prop :=
  ∃ r, out = '/' :: r ∧ r.head? ≠ some '/'

/-- A real path component: non-empty, without separator, and neither `.`
nor `..`. -/
def IsComp (c : List Char) : Prop :=
  c ≠ [] ∧ (∀ x ∈ c, IsPathSeparator x = false) ∧ c ≠ ['.'] ∧ c ≠ ['.', '.']

/-- The cleaned absolute path with the given components: each one preceded by
a separator.  No component gives the empty string. -/
def absPath : List (List Char) → List Char
  | [] => []
  | c :: cs => '/' :: c ++ absPath cs

/-- The marker `.wh.` that starts the name of a whiteout. -/
def whPrefix : List Char := ['.', 'w', 'h', '.']

/-- In the map `seen` only the IdentityKey `k` may be mapped to the name
`n1`. -/
def OnlyKey (k : Nat) (n1 : List Char) (seen : SeenFiles) : Prop :=
  ∀ k1 n, lookupSeen k1 seen = some n → n = n1 → k1 = k

/-- The records of a list all have a rooted path and a name other than `n1`,
and those that are not Deleted name no regular file with IdentityKey `k`. -/
def Others (fs : List Char → Option FileInfo) (dir : List Char) (k : Nat) (n1 : List Char)
    (cs : List Change) : Prop :=
  ∀ c ∈ cs, (∃ t, c.Path = '/' :: t) ∧ c.Path.tail ≠ n1 ∧
    (c.Kind ≠ ChangeType.ChangeDelete →
      ∀ fi, fs (Join [dir, c.Path]) = some fi → fi.kind = FileKind.regular → fi.key ≠ k)

/-! ## The path functions on the examples of the Go documentation and tests -/

/-- The function `Clean` on cases of the table `cleantests` of the Go tests. -/
theorem Clean_examples :
    Clean "abc".toList = "abc".toList ∧ Clean "".toList = ".".toList ∧
    Clean "/".toList = "/".toList ∧ Clean "abc/".toList = "abc".toList ∧
    Clean "../../".toList = "../..".toList ∧ Clean "//abc//".toList = "/abc".toList ∧
    Clean "abc//def//ghi".toList = "abc/def/ghi".toList ∧
    Clean "/./abc/def".toList = "/abc/def".toList ∧
    Clean "abc/def/ghi/../jkl".toList = "abc/def/jkl".toList ∧
    Clean "abc/def/../../..".toList = "..".toList ∧
    Clean "/abc/def/../../..".toList = "/".toList ∧
    Clean "abc/def/../../../ghi/jkl/../../../mno".toList = "../../mno".toList ∧
    Clean "/../abc".toList = "/abc".toList ∧
    Clean "abc/../../././../def".toList = "../../def".toList := by
  decide!

/-- The functions `Dir`, `Base` and `Join` on cases of the tables of the Go
tests. -/
theorem Dir_Base_Join_examples :
    Dir "".toList = ".".toList ∧ Dir "/.".toList = "/".toList ∧
    Dir "////".toList = "/".toList ∧ Dir "/foo".toList = "/".toList ∧
    Dir "x/".toList = "x".toList ∧ Dir "a/b/c.x".toList = "a/b".toList ∧
    Base "".toList = ".".toList ∧ Base "/.".toList = ".".toList ∧
    Base "////".toList = "/".toList ∧ Base "x/".toList = "x".toList ∧
    Base "a/b/c.x".toList = "c.x".toList ∧
    Join ["a".toList, "".toList] = "a".toList ∧ Join ["".toList, "b".toList] = "b".toList ∧
    Join ["/".toList, "a".toList] = "/a".toList ∧ Join ["a/".toList, "b".toList] = "a/b".toList ∧
    Join ["".toList, "".toList] = [] := by
  decide!

/-! ## Facts about `filepath.Clean` -/

theorem cleanLoop_nil (rooted mode : Bool) (out : List Char) (dotdot : Nat) :
    cleanLoop rooted mode [] out dotdot = out := by
  cases mode <;> rfl

theorem cleanLoop_copy (rooted : Bool) (c : Char) (t out : List Char) (dotdot : Nat) :
    cleanLoop rooted true (c :: t) out dotdot =
      if IsPathSeparator c = true then cleanLoop rooted false t out dotdot
      else cleanLoop rooted true t (out ++ [c]) dotdot := rfl

theorem cleanLoop_sep (rooted : Bool) (c : Char) (t out : List Char) (dotdot : Nat)
    (h : IsPathSeparator c = true) :
    cleanLoop rooted false (c :: t) out dotdot = cleanLoop rooted false t out dotdot := by
  cases t <;> simp only [cleanLoop, if_pos h]

theorem cleanLoop_dot (rooted : Bool) (t out : List Char) (dotdot : Nat)
    (h : isSepOrEnd t = true) :
    cleanLoop rooted false ('.' :: t) out dotdot = cleanLoop rooted false t out dotdot := by
  cases t <;> simp only [cleanLoop, h, and_self, if_true, ite_self]

theorem cleanLoop_dotdot (rooted : Bool) (t out : List Char) (dotdot : Nat)
    (h : isSepOrEnd t = true) :
    cleanLoop rooted false ('.' :: '.' :: t) out dotdot =
      if dotdot < out.length then
        cleanLoop rooted false t (out.take (backtrack out dotdot (out.length - 1))) dotdot
      else if rooted = false then
        cleanLoop rooted false t
          ((if 0 < out.length then out ++ ['/'] else out) ++ ['.', '.'])
          ((if 0 < out.length then out ++ ['/'] else out) ++ ['.', '.']).length
      else cleanLoop rooted false t out dotdot := by
  rw [cleanLoop]
  have h1 : ¬ (IsPathSeparator '.' = true) := by decide
  have h2 : ¬ ('.' = '.' ∧ isSepOrEnd ('.' :: t) = true) := by
    simp [isSepOrEnd, IsPathSeparator]
  rw [if_neg h1, if_neg h2]
  simp only [h, and_self, if_true]

theorem cleanLoop_unfold2 (rooted : Bool) (c c2 : Char) (t2 out : List Char) (dotdot : Nat) :
    cleanLoop rooted false (c :: c2 :: t2) out dotdot =
      if IsPathSeparator c = true then cleanLoop rooted false (c2 :: t2) out dotdot
      else if c = '.' ∧ isSepOrEnd (c2 :: t2) = true then
        cleanLoop rooted false (c2 :: t2) out dotdot
      else if c = '.' ∧ c2 = '.' ∧ isSepOrEnd t2 = true then
        if dotdot < out.length then
          cleanLoop rooted false t2 (out.take (backtrack out dotdot (out.length - 1))) dotdot
        else if rooted = false then
          cleanLoop rooted false t2
            ((if 0 < out.length then out ++ ['/'] else out) ++ ['.', '.'])
            ((if 0 < out.length then out ++ ['/'] else out) ++ ['.', '.']).length
        else cleanLoop rooted false t2 out dotdot
      else cleanLoop rooted true (c2 :: t2) (addSlash rooted out ++ [c]) dotdot := rfl

theorem cleanLoop_unfold1 (rooted : Bool) (c : Char) (out : List Char) (dotdot : Nat) :
    cleanLoop rooted false [c] out dotdot =
      if IsPathSeparator c = true then cleanLoop rooted false [] out dotdot
      else if c = '.' ∧ isSepOrEnd [] = true then cleanLoop rooted false [] out dotdot
      else cleanLoop rooted true [] (addSlash rooted out ++ [c]) dotdot := rfl

theorem cleanLoop_elem (rooted : Bool) (c : Char) (t out : List Char) (dotdot : Nat)
    (h : IsRealElem c t) :
    cleanLoop rooted false (c :: t) out dotdot =
      cleanLoop rooted true t (addSlash rooted out ++ [c]) dotdot := by
  obtain ⟨h1, h2, h3⟩ := h
  cases t with
  | nil =>
    rw [cleanLoop_unfold1, if_neg (by simp [h1]), if_neg h2]
  | cons c2 t2 =>
    have : ¬ (c = '.' ∧ c2 = '.' ∧ isSepOrEnd t2 = true) := by
      rintro ⟨a, b, d⟩
      exact h3 ⟨a, t2, by rw [b], d⟩
    rw [cleanLoop_unfold2, if_neg (by simp [h1]), if_neg h2, if_neg this]

/-- Every element is empty, `.`, `..` or real. -/
theorem elem_cases (c : Char) (t : List Char) :
    IsPathSeparator c = true ∨ (c = '.' ∧ isSepOrEnd t = true) ∨
      (c = '.' ∧ ∃ t2, t = '.' :: t2 ∧ isSepOrEnd t2 = true) ∨ IsRealElem c t := by
  unfold IsRealElem
  by_cases h1 : IsPathSeparator c = true
  · exact Or.inl h1
  · by_cases h2 : c = '.' ∧ isSepOrEnd t = true
    · exact Or.inr (Or.inl h2)
    · by_cases h3 : c = '.' ∧ ∃ t2, t = '.' :: t2 ∧ isSepOrEnd t2 = true
      · exact Or.inr (Or.inr (Or.inl h3))
      · exact Or.inr (Or.inr (Or.inr ⟨by simpa using h1, h2, h3⟩))

theorem isSepOrEnd_append_slash (t : List Char) : isSepOrEnd (t ++ ['/']) = isSepOrEnd t := by
  cases t <;> simp [isSepOrEnd, IsPathSeparator]

theorem cleanLoop_append_slash_aux (rooted : Bool) (n : Nat) :
    ∀ (p : List Char), p.length ≤ n → ∀ (mode : Bool) (out : List Char) (dotdot : Nat),
      cleanLoop rooted mode (p ++ ['/']) out dotdot = cleanLoop rooted mode p out dotdot := by
  induction n using Nat.strong_induction_on with
  | _ n ih =>
    intro p hp mode out dotdot
    have hsl : IsPathSeparator '/' = true := by decide
    match p, hp with
    | [], _ =>
      cases mode
      · rw [List.nil_append, cleanLoop_sep _ _ _ _ _ hsl]
      · rw [List.nil_append, cleanLoop_copy, if_pos hsl, cleanLoop_nil, cleanLoop_nil]
    | c :: t, hp =>
      have ht : t.length < n := by simp at hp; omega
      have iht := ih t.length ht t le_rfl
      cases mode with
      | true =>
        rw [List.cons_append, cleanLoop_copy, cleanLoop_copy, iht, iht]
      | false =>
        rcases elem_cases c t with h | h | h | h
        · rw [List.cons_append, cleanLoop_sep _ _ _ _ _ h, cleanLoop_sep _ _ _ _ _ h, iht]
        · obtain ⟨rfl, h⟩ := h
          rw [List.cons_append, cleanLoop_dot _ _ _ _ h,
            cleanLoop_dot _ _ _ _ (by rw [isSepOrEnd_append_slash]; exact h), iht]
        · obtain ⟨rfl, t2, rfl, h⟩ := h
          have iht2 := ih t2.length (by simp at ht; omega) t2 le_rfl
          rw [List.cons_append, List.cons_append, cleanLoop_dotdot _ _ _ _ h,
            cleanLoop_dotdot _ _ _ _ (by rw [isSepOrEnd_append_slash]; exact h), iht2, iht2, iht2]
        · have h' : IsRealElem c (t ++ ['/']) := by
            refine ⟨h.1, ?_, ?_⟩
            · rw [isSepOrEnd_append_slash]; exact h.2.1
            · rintro ⟨a, t2, b, d⟩
              cases t with
              | nil =>
                simp at b
              | cons c2 t3 =>
                simp only [List.cons_append, List.cons.injEq] at b
                obtain ⟨b1, b2⟩ := b
                subst b1
                cases t3 with
                | nil =>
                  simp at b2
                  subst b2
                  exact h.2.2 ⟨a, [], rfl, rfl⟩
                | cons c3 t4 =>
                  refine h.2.2 ⟨a, c3 :: t4, rfl, ?_⟩
                  rw [← b2] at d
                  simpa [isSepOrEnd] using d
          rw [List.cons_append, cleanLoop_elem _ _ _ _ _ h, cleanLoop_elem _ _ _ _ _ h', iht]

theorem Clean_append_slash (p : List Char) (hp : p ≠ []) : Clean (p ++ ['/']) = Clean p := by
  cases p with
  | nil => exact absurd rfl hp
  | cons c t =>
    have h1 := cleanLoop_append_slash_aux true t.length t le_rfl
    have h2 := cleanLoop_append_slash_aux false (c :: t).length (c :: t) le_rfl
    simp only [List.cons_append] at h2
    simp only [Clean, List.cons_append, h1, h2]

theorem dotIfEmpty_ne_nil (l : List Char) : (if l.length = 0 then ['.'] else l) ≠ [] := by
  split
  · simp
  · rename_i h
    intro h'
    exact h (by rw [h']; rfl)

theorem Clean_ne_nil (p : List Char) : Clean p ≠ [] := by
  cases p with
  | nil => simp [Clean]
  | cons c t => exact dotIfEmpty_ne_nil _

theorem RootedOut_append_char {out : List Char} (h : RootedOut out) (c : Char)
    (hc : IsPathSeparator c = false) : RootedOut (out ++ [c]) := by
  obtain ⟨r, rfl, hr⟩ := h
  refine ⟨r ++ [c], rfl, ?_⟩
  cases r with
  | nil =>
    intro h
    simp at h
    rw [h] at hc
    exact absurd hc (by decide)
  | cons a r => simpa using hr

theorem RootedOut_addSlash_char {out : List Char} (h : RootedOut out) (c : Char)
    (hc : IsPathSeparator c = false) : RootedOut (addSlash true out ++ [c]) := by
  unfold addSlash
  split
  · rename_i hl
    obtain ⟨r, rfl, hr⟩ := h
    refine ⟨r ++ ['/'] ++ [c], by simp, ?_⟩
    cases r with
    | nil => simp at hl
    | cons a r => simpa using hr
  · exact RootedOut_append_char h c hc

theorem backtrack_ge (buf : List Char) (dotdot : Nat) :
    ∀ w, dotdot ≤ w → dotdot ≤ backtrack buf dotdot w := by
  intro w
  induction w with
  | zero => intro h; simpa [backtrack] using h
  | succ w ih =>
    intro h
    unfold backtrack
    split
    · rename_i hc
      exact ih (by omega)
    · exact h

theorem RootedOut_take {out : List Char} (h : RootedOut out) (k : Nat) (hk : 1 ≤ k) :
    RootedOut (out.take k) := by
  obtain ⟨r, rfl, hr⟩ := h
  obtain ⟨j, rfl⟩ : ∃ j, k = j + 1 := ⟨k - 1, by omega⟩
  refine ⟨r.take j, by simp, ?_⟩
  cases r with
  | nil => simp
  | cons a r =>
    cases j with
    | zero => simp
    | succ j => simpa using hr

theorem RootedOut_backtrack {out : List Char} (h : RootedOut out) (hl : 1 < out.length) :
    RootedOut (out.take (backtrack out 1 (out.length - 1))) :=
  RootedOut_take h _ (backtrack_ge out 1 _ (by omega))

/-- A rooted run of the loop over `xs` followed by a separator reaches what
follows the separator with an output buffer that is still well formed. -/
theorem cleanLoop_rooted_prefix (sfx : List Char) (n : Nat) :
    ∀ (xs : List Char), xs.length ≤ n → ∀ (mode : Bool) (out : List Char), RootedOut out →
      ∃ out1, RootedOut out1 ∧
        cleanLoop true mode (xs ++ '/' :: sfx) out 1 = cleanLoop true false sfx out1 1 := by
  induction n using Nat.strong_induction_on with
  | _ n ih =>
    intro xs hxs mode out hout
    have hsl : IsPathSeparator '/' = true := by decide
    match xs, hxs with
    | [], _ =>
      refine ⟨out, hout, ?_⟩
      cases mode
      · rw [List.nil_append, cleanLoop_sep _ _ _ _ _ hsl]
      · rw [List.nil_append, cleanLoop_copy, if_pos hsl]
    | c :: t, hxs =>
      have ht : t.length < n := by simp at hxs; omega
      have iht := ih t.length ht t le_rfl
      cases mode with
      | true =>
        rw [List.cons_append, cleanLoop_copy]
        by_cases hc : IsPathSeparator c = true
        · rw [if_pos hc]; exact iht false out hout
        · rw [if_neg hc]
          exact iht true _ (RootedOut_append_char hout c (by simpa using hc))
      | false =>
        rcases elem_cases c (t ++ '/' :: sfx) with h | h | h | h
        · rw [List.cons_append, cleanLoop_sep _ _ _ _ _ h]; exact iht false out hout
        · obtain ⟨rfl, h⟩ := h
          rw [List.cons_append, cleanLoop_dot _ _ _ _ h]; exact iht false out hout
        · obtain ⟨rfl, t2, ht2, h⟩ := h
          cases t with
          | nil => simp at ht2
          | cons c2 t3 =>
            simp only [List.cons_append, List.cons.injEq] at ht2
            obtain ⟨rfl, rfl⟩ := ht2
            have iht3 := ih t3.length (by simp at ht; omega) t3 le_rfl
            rw [List.cons_append, List.cons_append, cleanLoop_dotdot _ _ _ _ h]
            by_cases hl : 1 < out.length
            · rw [if_pos hl]
              exact iht3 false _ (RootedOut_backtrack hout hl)
            · rw [if_neg hl, if_neg (by decide)]
              exact iht3 false out hout
        · rw [List.cons_append, cleanLoop_elem _ _ _ _ _ h]
          exact iht true _ (RootedOut_addSlash_char hout c h.1)

theorem cleanLoop_rooted (xs : List Char) (mode : Bool) (out : List Char) (h : RootedOut out) :
    RootedOut (cleanLoop true mode xs out 1) := by
  obtain ⟨out1, h1, h2⟩ := cleanLoop_rooted_prefix [] xs.length xs le_rfl mode out h
  rw [← cleanLoop_append_slash_aux true xs.length xs le_rfl, h2, cleanLoop_nil]
  exact h1

theorem Clean_rooted (t : List Char) : RootedOut (Clean ('/' :: t)) := by
  have h : RootedOut (cleanLoop true false t ['/'] 1) :=
    cleanLoop_rooted t false ['/'] ⟨[], rfl, by simp⟩
  have h2 : Clean ('/' :: t) = cleanLoop true false t ['/'] 1 := by
    obtain ⟨r, hr, _⟩ := h
    simp [Clean, IsPathSeparator, hr]
  rw [h2]; exact h

/-- Copying a real path element stops at the next separator or at the end. -/
theorem cleanLoop_copy_elem (rooted : Bool) (xs rest out : List Char) (dotdot : Nat)
    (hxs : ∀ c ∈ xs, IsPathSeparator c = false) (hrest : isSepOrEnd rest = true) :
    cleanLoop rooted true (xs ++ rest) out dotdot = cleanLoop rooted false rest (out ++ xs) dotdot := by
  induction xs generalizing out with
  | nil =>
    cases rest with
    | nil => simp [cleanLoop_nil]
    | cons c t =>
      have hc : IsPathSeparator c = true := by simpa [isSepOrEnd] using hrest
      rw [List.nil_append, cleanLoop_copy, if_pos hc, cleanLoop_sep _ _ _ _ _ hc, List.append_nil]
  | cons x xs ih =>
    have hx : IsPathSeparator x = false := hxs x (List.mem_cons_self _ _)
    rw [List.cons_append, cleanLoop_copy, if_neg (by simp [hx]),
      ih _ (fun c hc => hxs c (List.mem_cons_of_mem _ hc))]
    simp

theorem isSepOrEnd_absPath_append (cs : List (List Char)) (sfx : List Char)
    (h : isSepOrEnd sfx = true) : isSepOrEnd (absPath cs ++ sfx) = true := by
  cases cs with
  | nil => simpa [absPath] using h
  | cons c cs => simp [absPath, isSepOrEnd, IsPathSeparator]

theorem IsComp_realElem (x : Char) (xs rest : List Char) (h : IsComp (x :: xs))
    (hrest : isSepOrEnd rest = true) : IsRealElem x (xs ++ rest) := by
  obtain ⟨_, h2, h3, h4⟩ := h
  have hx : IsPathSeparator x = false := h2 x (List.mem_cons_self _ _)
  refine ⟨hx, ?_, ?_⟩
  · rintro ⟨rfl, h⟩
    cases xs with
    | nil => exact h3 rfl
    | cons y ys =>
      have hy : IsPathSeparator y = false :=
        h2 y (List.mem_cons_of_mem _ (List.mem_cons_self _ _))
      simp [isSepOrEnd, hy] at h
  · rintro ⟨rfl, t2, ht2, h⟩
    cases xs with
    | nil =>
      simp only [List.nil_append] at ht2
      subst ht2
      simp [isSepOrEnd, IsPathSeparator] at hrest
    | cons y ys =>
      simp only [List.cons_append, List.cons.injEq] at ht2
      obtain ⟨rfl, rfl⟩ := ht2
      cases ys with
      | nil => exact h4 rfl
      | cons z zs =>
        have hz : IsPathSeparator z = false :=
          h2 z (List.mem_cons_of_mem _ (List.mem_cons_of_mem _ (List.mem_cons_self _ _)))
        simp [isSepOrEnd, hz] at h

/-- One real component in front of a separator or the end is copied to the
output behind `addSlash`. -/
theorem cleanLoop_comp (rooted : Bool) (c rest out : List Char) (dotdot : Nat)
    (hc : IsComp c) (hrest : isSepOrEnd rest = true) :
    cleanLoop rooted false (c ++ rest) out dotdot =
      cleanLoop rooted false rest (addSlash rooted out ++ c) dotdot := by
  cases c with
  | nil => exact absurd rfl hc.1
  | cons x xs =>
    rw [List.cons_append, cleanLoop_elem _ _ _ _ _ (IsComp_realElem x xs rest hc hrest),
      cleanLoop_copy_elem _ _ _ _ _ (fun c h => hc.2.1 c (List.mem_cons_of_mem _ h)) hrest]
    simp

theorem cleanLoop_absPath (cs : List (List Char)) (hcs : ∀ c ∈ cs, IsComp c)
    (sfx out : List Char) (dotdot : Nat) (hsfx : isSepOrEnd sfx = true)
    (hout : 2 ≤ out.length) :
    cleanLoop true false (absPath cs ++ sfx) out dotdot =
      cleanLoop true false sfx (out ++ absPath cs) dotdot := by
  induction cs generalizing out with
  | nil => simp [absPath]
  | cons c cs ih =>
    have hc : IsComp c := hcs c (List.mem_cons_self _ _)
    have hsl : IsPathSeparator '/' = true := by decide
    have h1 : absPath (c :: cs) ++ sfx = '/' :: (c ++ (absPath cs ++ sfx)) := by
      simp [absPath]
    have h2 : addSlash true out = out ++ ['/'] := by
      unfold addSlash
      rw [if_pos (Or.inl ⟨rfl, by omega⟩)]
    rw [h1, cleanLoop_sep _ _ _ _ _ hsl,
      cleanLoop_comp _ _ _ _ _ hc (isSepOrEnd_absPath_append cs sfx hsfx), h2,
      ih (fun c h => hcs c (List.mem_cons_of_mem _ h)) _ (by simp; omega)]
    simp [absPath]

/-- Cleaning a cleaned absolute path followed by more input: the path is
copied unchanged and the loop goes on behind it. -/
theorem Clean_absPath_append (c : List Char) (cs : List (List Char)) (hc : IsComp c)
    (hcs : ∀ c ∈ cs, IsComp c) (sfx : List Char) (hsfx : isSepOrEnd sfx = true) :
    Clean (absPath (c :: cs) ++ sfx) = cleanLoop true false sfx (absPath (c :: cs)) 1 := by
  have hsl : IsPathSeparator '/' = true := by decide
  have h1 : absPath (c :: cs) ++ sfx = '/' :: (c ++ (absPath cs ++ sfx)) := by
    simp [absPath]
  have h2 : addSlash true ['/'] = ['/'] := by simp [addSlash]
  have hne : c ≠ [] := hc.1
  have h5 : RootedOut (cleanLoop true false sfx (absPath (c :: cs)) 1) := by
    refine cleanLoop_rooted _ _ _ ⟨c ++ absPath cs, by simp [absPath], ?_⟩
    cases c with
    | nil => exact absurd rfl hne
    | cons x xs =>
      have := hc.2.1 x (List.mem_cons_self _ _)
      intro h
      simp at h
      rw [h] at this
      exact absurd this (by decide)
  rw [h1]
  unfold Clean
  simp only [hsl, if_true]
  rw [cleanLoop_comp _ _ _ _ _ hc (isSepOrEnd_absPath_append cs sfx hsfx), h2,
    cleanLoop_absPath cs hcs sfx _ 1 hsfx
      (by cases c with
          | nil => exact absurd rfl hne
          | cons x xs => simp)]
  have h4 : ['/'] ++ c ++ absPath cs = absPath (c :: cs) := by simp [absPath]
  rw [h4]
  obtain ⟨r, hr, _⟩ := h5
  rw [hr]; simp

/-! ## Facts about `Dir`, `Base` and the whiteout string -/

theorem dropWhile_append_sep (l : List Char) :
    ∃ l1, (l ++ ['/']).dropWhile (fun c => ! IsPathSeparator c) = l1 ++ ['/'] := by
  induction l with
  | nil => exact ⟨[], by simp [IsPathSeparator]⟩
  | cons a l ih =>
    obtain ⟨l1, h1⟩ := ih
    by_cases ha : IsPathSeparator a = true
    · exact ⟨a :: l, by simp [List.dropWhile, ha]⟩
    · exact ⟨l1, by simp [List.dropWhile, ha]; simpa using h1⟩

theorem dirPrefix_rooted (t : List Char) : ∃ l, dirPrefix ('/' :: t) = '/' :: l := by
  unfold dirPrefix
  obtain ⟨l1, h1⟩ := dropWhile_append_sep t.reverse
  rw [List.reverse_cons, h1]
  exact ⟨l1.reverse, by simp⟩

theorem dropWhile_notSep_append (c rest : List Char)
    (hc : ∀ x ∈ c, IsPathSeparator x = false) :
    (c ++ '/' :: rest).dropWhile (fun x => ! IsPathSeparator x) = '/' :: rest := by
  induction c with
  | nil => simp [IsPathSeparator]
  | cons a c ih =>
    have ha := hc a (List.mem_cons_self _ _)
    have ih1 := ih (fun x hx => hc x (List.mem_cons_of_mem _ hx))
    rw [List.cons_append, List.dropWhile_cons]
    simp only [ha, Bool.not_false, if_true, ih1]

theorem takeWhile_notSep_append (c rest : List Char)
    (hc : ∀ x ∈ c, IsPathSeparator x = false) :
    (c ++ '/' :: rest).takeWhile (fun x => ! IsPathSeparator x) = c := by
  induction c with
  | nil => simp [IsPathSeparator]
  | cons a c ih =>
    have ha := hc a (List.mem_cons_self _ _)
    have ih1 := ih (fun x hx => hc x (List.mem_cons_of_mem _ hx))
    rw [List.cons_append, List.takeWhile_cons]
    simp only [ha, Bool.not_false, if_true, ih1]

/-- The part of `d + "/" + c` that `Dir` cleans is `d + "/"`. -/
theorem dirPrefix_append (d c : List Char) (hc : ∀ x ∈ c, IsPathSeparator x = false) :
    dirPrefix (d ++ '/' :: c) = d ++ ['/'] := by
  unfold dirPrefix
  have h : (d ++ '/' :: c).reverse = c.reverse ++ '/' :: d.reverse := by simp
  rw [h, dropWhile_notSep_append _ _ (fun x hx => hc x (List.mem_reverse.mp hx))]
  simp

/-- The last element of `d + "/" + c` is `c`. -/
theorem Base_append (d c : List Char) (hne : c ≠ [])
    (hc : ∀ x ∈ c, IsPathSeparator x = false) : Base (d ++ '/' :: c) = c := by
  unfold Base
  have h : (d ++ '/' :: c).reverse = c.reverse ++ '/' :: d.reverse := by simp
  have h0 : d ++ '/' :: c ≠ [] := by simp
  have hrev : c.reverse ≠ [] := by simpa using hne
  have h1 : (c.reverse ++ '/' :: d.reverse).dropWhile IsPathSeparator =
      c.reverse ++ '/' :: d.reverse := by
    cases hcr : c.reverse with
    | nil => exact absurd hcr hrev
    | cons a l =>
      have ha : IsPathSeparator a = false :=
        hc a (List.mem_reverse.mp (by rw [hcr]; exact List.mem_cons_self _ _))
      simp [List.dropWhile, ha]
  simp only [h0, if_false, h, h1]
  rw [takeWhile_notSep_append _ _ (fun x hx => hc x (List.mem_reverse.mp hx))]
  simp [hne]

/-- The result of `Base` is the single separator or contains none. -/
theorem Base_cases (p : List Char) :
    Base p = ['/'] ∨ ∀ x ∈ Base p, IsPathSeparator x = false := by
  unfold Base
  by_cases hp : p = []
  · right
    simp [hp, IsPathSeparator]
  · simp only [hp, if_false]
    split
    · exact Or.inl rfl
    · right
      intro x hx
      have := List.mem_takeWhile_imp (List.mem_reverse.mp hx)
      simpa using this

theorem absPath_append (a b : List (List Char)) : absPath (a ++ b) = absPath a ++ absPath b := by
  induction a with
  | nil => rfl
  | cons c cs ih => simp [absPath, ih]

theorem IsComp_whPrefix_append (c : List Char) (hc : ∀ x ∈ c, IsPathSeparator x = false) :
    IsComp (whPrefix ++ c) := by
  refine ⟨by simp [whPrefix], ?_, by simp [whPrefix], by simp [whPrefix]⟩
  intro x hx
  rcases List.mem_append.mp hx with h | h
  · simp only [whPrefix, List.mem_cons, List.mem_singleton, List.not_mem_nil, or_false] at h
    rcases h with rfl | rfl | rfl | rfl <;> decide
  · exact hc x h

/-- The string `whiteOut` is the cleaned join of the directory and the marked
base name. -/
theorem whiteOut_eq (p : List Char) :
    whiteOut p = Clean (Dir p ++ '/' :: (whPrefix ++ Base p)) := by
  have h : Dir p ≠ [] := Clean_ne_nil _
  simp [whiteOut, Join, h, stringsJoin, whPrefix]

theorem whiteOut_ne_nil (p : List Char) : whiteOut p ≠ [] := by
  rw [whiteOut_eq]; exact Clean_ne_nil _

/-- The directory of `d + "/" + c` for a cleaned absolute `d`: the root for
the empty `d`, otherwise `d` itself. -/
theorem Dir_absPath (cs : List (List Char)) (hcs : ∀ c ∈ cs, IsComp c) (c : List Char)
    (hc : ∀ x ∈ c, IsPathSeparator x = false) :
    Dir (absPath cs ++ '/' :: c) = if cs = [] then ['/'] else absPath cs := by
  have hsl : IsPathSeparator '/' = true := by decide
  unfold Dir
  rw [dirPrefix_append _ _ hc]
  cases cs with
  | nil => simp [absPath, Clean, hsl, cleanLoop_nil]
  | cons c0 cs1 =>
    rw [Clean_absPath_append c0 cs1 (hcs c0 (List.mem_cons_self _ _))
      (fun x hx => hcs x (List.mem_cons_of_mem _ hx)) ['/'] rfl,
      cleanLoop_sep _ _ _ _ _ hsl, cleanLoop_nil]
    simp

/-- The whiteout string of `d + "/" + c` for a cleaned absolute `d` is
`d + "/.wh." + c`. -/
theorem whiteOut_absPath (cs : List (List Char)) (hcs : ∀ c ∈ cs, IsComp c) (c : List Char)
    (hne : c ≠ []) (hc : ∀ x ∈ c, IsPathSeparator x = false) :
    whiteOut (absPath cs ++ '/' :: c) = absPath cs ++ '/' :: (whPrefix ++ c) := by
  have hsl : IsPathSeparator '/' = true := by decide
  have hw : IsComp (whPrefix ++ c) := IsComp_whPrefix_append c hc
  rw [whiteOut_eq, Dir_absPath cs hcs c hc, Base_append _ _ hne hc]
  cases cs with
  | nil =>
    have h1 : Clean ('/' :: '/' :: (whPrefix ++ c)) = '/' :: (whPrefix ++ c) := by
      have h2 := cleanLoop_comp true (whPrefix ++ c) [] ['/'] 1 hw rfl
      rw [List.append_nil, cleanLoop_nil] at h2
      unfold Clean
      simp only [hsl, if_true]
      rw [cleanLoop_sep _ _ _ _ _ hsl, h2]
      simp [addSlash]
    simpa [absPath] using h1
  | cons c0 cs1 =>
    have h1 : absPath (c0 :: cs1) ++ '/' :: (whPrefix ++ c) =
        absPath (c0 :: (cs1 ++ [whPrefix ++ c])) ++ [] := by
      have h2 : c0 :: (cs1 ++ [whPrefix ++ c]) = (c0 :: cs1) ++ [whPrefix ++ c] := rfl
      rw [h2, absPath_append]
      simp [absPath]
    simp only [if_false, reduceCtorEq]
    rw [h1, Clean_absPath_append c0 (cs1 ++ [whPrefix ++ c]) (hcs c0 (List.mem_cons_self _ _))
      (by
        intro x hx
        rcases List.mem_append.mp hx with h | h
        · exact hcs x (List.mem_cons_of_mem _ h)
        · rw [List.mem_singleton.mp h]; exact hw) [] rfl, cleanLoop_nil]
    simp

/-- For a path that begins with the separator, `whiteOut` begins with exactly
one separator and goes on behind it. -/
theorem whiteOut_rooted (t : List Char) :
    ∃ name, whiteOut ('/' :: t) = '/' :: name ∧ name ≠ [] ∧ name.head? ≠ some '/' := by
  have hsl : IsPathSeparator '/' = true := by decide
  obtain ⟨l, hl⟩ := dirPrefix_rooted t
  have hd : RootedOut (Dir ('/' :: t)) := by
    unfold Dir; rw [hl]; exact Clean_rooted l
  obtain ⟨r, hr, _⟩ := hd
  obtain ⟨out1, ho1, ho2⟩ := cleanLoop_rooted_prefix (whPrefix ++ Base ('/' :: t)) r.length r le_rfl
    false ['/'] ⟨[], rfl, by simp⟩
  have key : ∃ b, cleanLoop true false (whPrefix ++ Base ('/' :: t)) out1 1 =
      addSlash true out1 ++ (whPrefix ++ b) := by
    rcases Base_cases ('/' :: t) with hb | hb
    · refine ⟨[], ?_⟩
      have hw : IsComp (whPrefix ++ []) := IsComp_whPrefix_append [] (by simp)
      rw [List.append_nil] at hw
      rw [hb, cleanLoop_comp true whPrefix ['/'] out1 1 hw rfl, cleanLoop_sep _ _ _ _ _ hsl,
        cleanLoop_nil, List.append_nil]
    · refine ⟨Base ('/' :: t), ?_⟩
      have h2 := cleanLoop_comp true (whPrefix ++ Base ('/' :: t)) [] out1 1
        (IsComp_whPrefix_append _ hb) rfl
      rw [List.append_nil, cleanLoop_nil] at h2
      exact h2
  obtain ⟨b, hb⟩ := key
  obtain ⟨r1, hr1, hr1h⟩ := ho1
  have hres : ∃ name, cleanLoop true false (r ++ '/' :: (whPrefix ++ Base ('/' :: t))) ['/'] 1 =
      '/' :: name ∧ name ≠ [] ∧ name.head? ≠ some '/' := by
    rw [ho2, hb, hr1]
    unfold addSlash
    cases r1 with
    | nil => exact ⟨whPrefix ++ b, by simp, by simp [whPrefix], by simp [whPrefix]⟩
    | cons a r2 =>
      refine ⟨a :: r2 ++ '/' :: (whPrefix ++ b), by simp, by simp, ?_⟩
      simpa using hr1h
  obtain ⟨name, hn1, hn2, hn3⟩ := hres
  refine ⟨name, ?_, hn2, hn3⟩
  rw [whiteOut_eq, hr, List.cons_append]
  unfold Clean
  simp only [hsl, if_true, hn1]
  simp

/-! ## Facts about the order of paths and the sort -/

theorem strLess_irrefl (a : List Char) : strLess a a = false := by
  induction a with
  | nil => rfl
  | cons x xs ih => simp [strLess, ih]

theorem strLess_cons (c : Char) (a b : List Char) : strLess (c :: a) (c :: b) = strLess a b := by
  simp [strLess]

theorem strLess_trans : ∀ (a b c : List Char), strLess a b = true → strLess b c = true →
    strLess a c = true
  | [], [], _, h, _ => by simp [strLess] at h
  | [], _ :: _, [], _, h => by simp [strLess] at h
  | [], _ :: _, _ :: _, _, _ => by simp [strLess]
  | _ :: _, [], _, h, _ => by simp [strLess] at h
  | _ :: _, _ :: _, [], _, h => by simp [strLess] at h
  | x :: xs, y :: ys, z :: zs, h1, h2 => by
    simp only [strLess] at h1 h2 ⊢
    rcases lt_trichotomy x y with hxy | hxy | hxy
    · rcases lt_trichotomy y z with hyz | hyz | hyz
      · simp [lt_trans hxy hyz]
      · subst hyz; simp [hxy]
      · simp [hyz, lt_asymm hyz] at h2
    · subst hxy
      rcases lt_trichotomy x z with hyz | hyz | hyz
      · simp [hyz]
      · subst hyz
        simp only [lt_irrefl, if_false] at h1 h2 ⊢
        exact strLess_trans xs ys zs h1 h2
      · simp [hyz, lt_asymm hyz] at h2
    · simp [hxy, lt_asymm hxy] at h1

theorem strLess_total : ∀ (a b : List Char), strLess a b = false → strLess b a = false → a = b
  | [], [], _, _ => rfl
  | [], _ :: _, h, _ => by simp [strLess] at h
  | _ :: _, [], _, h => by simp [strLess] at h
  | x :: xs, y :: ys, h1, h2 => by
    simp only [strLess] at h1 h2
    rcases lt_trichotomy x y with hxy | hxy | hxy
    · simp [hxy] at h1
    · subst hxy
      simp only [lt_irrefl, if_false] at h1 h2
      rw [strLess_total xs ys h1 h2]
    · simp [hxy] at h2

theorem strLess_asymm (a b : List Char) (h : strLess a b = true) : strLess b a = false := by
  cases hba : strLess b a with
  | false => rfl
  | true =>
    have := strLess_trans a b a h hba
    rw [strLess_irrefl] at this
    exact absurd this (by decide)

theorem pathLE_total (a b : Change) : pathLE a b ∨ pathLE b a := by
  unfold pathLE changesByPath.Less
  cases h : strLess b.Path a.Path with
  | false => exact Or.inl rfl
  | true => exact Or.inr (strLess_asymm _ _ h)

theorem pathLE_trans (a b c : Change) (hab : pathLE a b) (hbc : pathLE b c) : pathLE a c := by
  unfold pathLE changesByPath.Less at *
  cases h : strLess c.Path a.Path with
  | false => rfl
  | true =>
    cases hba : strLess a.Path b.Path with
    | false =>
      have := strLess_total _ _ hba hab
      rw [this] at h
      rw [h] at hbc
      exact absurd hbc (by decide)
    | true =>
      have := strLess_trans _ _ _ h hba
      rw [this] at hbc
      exact absurd hbc (by decide)

theorem pathLT_antisymm (a b : Change) (hab : pathLT a b) (hba : pathLT b a) : a = b := by
  unfold pathLT changesByPath.Less at *
  rw [strLess_asymm _ _ hab] at hba
  exact absurd hba (by decide)

theorem sortSort_perm (changes : List Change) : (sortSort changes).Perm changes :=
  List.perm_insertionSort pathLE changes

theorem sortSort_sorted (changes : List Change) : (sortSort changes).Sorted pathLE := by
  haveI : IsTotal Change pathLE := ⟨pathLE_total⟩
  haveI : IsTrans Change pathLE := ⟨pathLE_trans⟩
  exact List.sorted_insertionSort pathLE changes

/-- Records with pairwise distinct paths come out of the sort in strictly
increasing order of path. -/
theorem sortSort_strict (changes : List Change) (h : (changes.map Change.Path).Nodup) :
    (sortSort changes).Sorted pathLT := by
  have h1 : ((sortSort changes).map Change.Path).Nodup :=
    ((sortSort_perm changes).map Change.Path).nodup_iff.mpr h
  have h2 : (sortSort changes).Pairwise (fun a b => a.Path ≠ b.Path) := by
    rw [List.Nodup, List.pairwise_map] at h1
    exact h1
  have h3 := (sortSort_sorted changes).and h2
  refine List.Pairwise.imp ?_ h3
  intro a b hab
  obtain ⟨hle, hne⟩ := hab
  unfold pathLE changesByPath.Less at hle
  unfold pathLT changesByPath.Less
  cases hlt : strLess a.Path b.Path with
  | true => rfl
  | false => exact absurd (strLess_total _ _ hlt hle) hne

/-- The sort does not depend on the order in which the records arrive when
their paths are pairwise distinct. -/
theorem sortSort_eq_of_perm (l1 l2 : List Change) (hp : l1.Perm l2)
    (h : (l1.map Change.Path).Nodup) : sortSort l1 = sortSort l2 := by
  have h2 : (l2.map Change.Path).Nodup := (hp.map Change.Path).nodup_iff.mp h
  haveI : IsAntisymm Change pathLT := ⟨pathLT_antisymm⟩
  exact List.eq_of_perm_of_sorted
    (((sortSort_perm l1).trans hp).trans (sortSort_perm l2).symm)
    (sortSort_strict l1 h) (sortSort_strict l2 h2)

/-! ## Facts about the export loop -/

theorem sliceFrom1_of_ne_nil (s : List Char) (h : s ≠ []) :
    ∃ t, sliceFrom1 s = some t ∧ s.tail = t := by
  cases s with
  | nil => exact absurd rfl h
  | cons a t => exact ⟨t, rfl, rfl⟩

theorem exportStep_some {ω : Type} (lib : Lib ω) (dir : List Char) (st st1 : ExportState ω)
    (c : Change) (h : exportStep lib dir st c = some st1) :
    ∃ ev, st1.events = st.events ++ [ev] ∧ ProcessedAs dir c ev ∧ st1.wrerr = st.wrerr := by
  unfold exportStep at h
  by_cases hk : c.Kind = ChangeType.ChangeDelete
  · rw [if_pos hk] at h
    obtain ⟨name, hn, _⟩ := sliceFrom1_of_ne_nil _ (whiteOut_ne_nil c.Path)
    simp only [hn, Option.some.injEq] at h
    subst h
    exact ⟨_, rfl, Or.inl ⟨hk, _, _, rfl, hn, rfl⟩, rfl⟩
  · rw [if_neg hk] at h
    cases hp : sliceFrom1 c.Path with
    | none => simp [hp] at h
    | some name =>
      simp only [hp, Option.some.injEq] at h
      subst h
      exact ⟨_, rfl, Or.inr ⟨hk, _, _, rfl, hp⟩, rfl⟩

theorem exportStep_isSome {ω : Type} (lib : Lib ω) (dir : List Char) (st : ExportState ω)
    (c : Change) (h : c.Kind ≠ ChangeType.ChangeDelete → c.Path ≠ []) :
    ∃ st1, exportStep lib dir st c = some st1 := by
  unfold exportStep
  by_cases hk : c.Kind = ChangeType.ChangeDelete
  · rw [if_pos hk]
    obtain ⟨name, hn, _⟩ := sliceFrom1_of_ne_nil _ (whiteOut_ne_nil c.Path)
    simp only [hn]
    exact ⟨_, rfl⟩
  · rw [if_neg hk]
    obtain ⟨name, hn, _⟩ := sliceFrom1_of_ne_nil _ (h hk)
    simp only [hn]
    exact ⟨_, rfl⟩

theorem exportLoop_some {ω : Type} (lib : Lib ω) (dir : List Char) (cs : List Change) :
    ∀ (st st1 : ExportState ω), exportLoop lib dir cs st = some st1 →
      ∃ evs, st1.events = st.events ++ evs ∧ List.Forall₂ (ProcessedAs dir) cs evs ∧
        st1.wrerr = st.wrerr := by
  induction cs with
  | nil =>
    intro st st1 h
    simp only [exportLoop, Option.some.injEq] at h
    subst h
    exact ⟨[], by simp, List.Forall₂.nil, rfl⟩
  | cons c cs ih =>
    intro st st1 h
    unfold exportLoop at h
    cases hs : exportStep lib dir st c with
    | none => simp [hs] at h
    | some st2 =>
      simp only [hs] at h
      obtain ⟨ev, he1, he2, he3⟩ := exportStep_some lib dir st st2 c hs
      obtain ⟨evs, hv1, hv2, hv3⟩ := ih st2 st1 h
      exact ⟨ev :: evs, by rw [hv1, he1]; simp, List.Forall₂.cons he2 hv2, by rw [hv3, he3]⟩

theorem exportLoop_isSome {ω : Type} (lib : Lib ω) (dir : List Char) (cs : List Change)
    (h : ∀ c ∈ cs, c.Kind ≠ ChangeType.ChangeDelete → c.Path ≠ []) :
    ∀ (st : ExportState ω), ∃ st1, exportLoop lib dir cs st = some st1 := by
  induction cs with
  | nil => intro st; exact ⟨st, rfl⟩
  | cons c cs ih =>
    intro st
    obtain ⟨st2, hs⟩ := exportStep_isSome lib dir st c (h c (List.mem_cons_self _ _))
    obtain ⟨st1, hl⟩ := ih (fun x hx => h x (List.mem_cons_of_mem _ hx)) st2
    exact ⟨st1, by unfold exportLoop; simp only [hs]; exact hl⟩

/-- A run of the goroutine that does not panic has made one call per record,
in the order of the sorted list, then closed the tar writer and the pipe. -/
theorem exportGoroutine_some {ω : Type} (lib : Lib ω) (dir : List Char) (changes : List Change)
    (w : ω) (st : ExportState ω) (h : exportGoroutine lib dir changes w = some st) :
    ∃ evs e, st.events = evs ++ [Event.TarClose e, Event.PipeClose] ∧
      List.Forall₂ (ProcessedAs dir) (sortSort changes) evs ∧ st.wrerr = some Error.EOF := by
  unfold exportGoroutine at h
  simp only at h
  cases hl : exportLoop lib dir (sortSort changes)
      { world := w, SeenFiles := [], events := [], logs := [], wrerr := none } with
  | none => simp [hl] at h
  | some st2 =>
    simp only [hl, Option.some.injEq] at h
    obtain ⟨evs, hv1, hv2, _⟩ := exportLoop_some lib dir _ _ _ hl
    subst h
    refine ⟨evs, (lib.TarClose st2.world).2, ?_, hv2, rfl⟩
    simp [exportFinish, hv1]

/-- The goroutine does not panic when every record that is not Deleted has a
non-empty path. -/
theorem exportGoroutine_isSome {ω : Type} (lib : Lib ω) (dir : List Char)
    (changes : List Change) (w : ω)
    (h : ∀ c ∈ changes, c.Kind ≠ ChangeType.ChangeDelete → c.Path ≠ []) :
    ∃ st, exportGoroutine lib dir changes w = some st := by
  obtain ⟨st1, hl⟩ := exportLoop_isSome lib dir (sortSort changes)
    (fun c hc => h c ((sortSort_perm changes).mem_iff.mp hc))
    { world := w, SeenFiles := [], events := [], logs := [], wrerr := none }
  exact ⟨exportFinish lib st1, by unfold exportGoroutine; simp only [hl]⟩

theorem logsOf_append (a b : List Event) : logsOf (a ++ b) = logsOf a ++ logsOf b := by
  induction a with
  | nil => rfl
  | cons ev evs ih => simp [logsOf, ih]

theorem logIfErr_eq (logs : List LogLine) (format : String) (path : Option (List Char))
    (err : Option Error) :
    logIfErr logs format path err =
      logs ++ (match err with
        | none => []
        | some e => [{ format := format, path := path, err := e }]) := by
  cases err <;> simp [logIfErr]

/-- The loop body logs exactly the error of its call. -/
theorem exportStep_logs {ω : Type} (lib : Lib ω) (dir : List Char) (st st1 : ExportState ω)
    (c : Change) (h : exportStep lib dir st c = some st1)
    (hl : st.logs = logsOf st.events) : st1.logs = logsOf st1.events := by
  unfold exportStep at h
  by_cases hk : c.Kind = ChangeType.ChangeDelete
  · rw [if_pos hk] at h
    cases hn : sliceFrom1 (whiteOut c.Path) with
    | none => simp [hn] at h
    | some name =>
      simp only [hn, Option.some.injEq] at h
      subst h
      simp only [logsOf_append, ← hl, logIfErr_eq]
      congr 1
      cases (lib.WriteHeader st.world _).2 <;> simp [logsOf, Event.logLines]
  · rw [if_neg hk] at h
    cases hn : sliceFrom1 c.Path with
    | none => simp [hn] at h
    | some name =>
      simp only [hn, Option.some.injEq] at h
      subst h
      simp only [logsOf_append, ← hl, logIfErr_eq]
      congr 1
      cases (lib.AddTarFile st.world st.SeenFiles _ _).2 <;> simp [logsOf, Event.logLines]

theorem exportLoop_logs {ω : Type} (lib : Lib ω) (dir : List Char) (cs : List Change) :
    ∀ (st st1 : ExportState ω), exportLoop lib dir cs st = some st1 →
      st.logs = logsOf st.events → st1.logs = logsOf st1.events := by
  induction cs with
  | nil =>
    intro st st1 h hl
    simp only [exportLoop, Option.some.injEq] at h
    subst h
    exact hl
  | cons c cs ih =>
    intro st st1 h hl
    unfold exportLoop at h
    cases hs : exportStep lib dir st c with
    | none => simp [hs] at h
    | some st2 =>
      simp only [hs] at h
      exact ih st2 st1 h (exportStep_logs lib dir st st2 c hs hl)

/-- The log of a run holds exactly one line for every call that returned an
error, in the order of the calls. -/
theorem exportGoroutine_logs {ω : Type} (lib : Lib ω) (dir : List Char)
    (changes : List Change) (w : ω) (st : ExportState ω)
    (h : exportGoroutine lib dir changes w = some st) : st.logs = logsOf st.events := by
  unfold exportGoroutine at h
  simp only at h
  cases hl : exportLoop lib dir (sortSort changes)
      { world := w, SeenFiles := [], events := [], logs := [], wrerr := none } with
  | none => simp [hl] at h
  | some st2 =>
    simp only [hl, Option.some.injEq] at h
    have h2 := exportLoop_logs lib dir _ _ _ hl rfl
    subst h
    simp only [exportFinish, logsOf_append, ← h2, logIfErr_eq]
    congr 1
    cases (lib.TarClose st2.world).2 <;> simp [logsOf, Event.logLines]

theorem err_logged (ev : Event) (e : Error) (h : ev.err = some e) :
    ∃ l ∈ ev.logLines, l.err = e := by
  cases ev with
  | WriteHeader hdr err =>
    simp only [Event.err] at h
    subst h
    exact ⟨_, List.mem_singleton.mpr rfl, rfl⟩
  | AddTarFile path name err =>
    simp only [Event.err] at h
    subst h
    exact ⟨_, List.mem_singleton.mpr rfl, rfl⟩
  | TarClose err =>
    simp only [Event.err] at h
    subst h
    exact ⟨_, List.mem_singleton.mpr rfl, rfl⟩
  | PipeClose => simp [Event.err] at h

theorem mem_logsOf (evs : List Event) (ev : Event) (l : LogLine) (hev : ev ∈ evs)
    (hl : l ∈ ev.logLines) : l ∈ logsOf evs := by
  induction evs with
  | nil => simp at hev
  | cons a evs ih =>
    simp only [logsOf, List.mem_append]
    rcases List.mem_cons.mp hev with rfl | h
    · exact Or.inl hl
    · exact Or.inr (ih h)

theorem forall₂_get? {α β : Type} {R : α → β → Prop} {l1 : List α} {l2 : List β}
    (h : List.Forall₂ R l1 l2) :
    ∀ j, j < l1.length → ∃ a b, l1.get? j = some a ∧ l2.get? j = some b ∧ R a b := by
  induction h with
  | nil => intro j hj; simp at hj
  | @cons a b l1 l2 hab _ ih =>
    intro j hj
    cases j with
    | zero => exact ⟨a, b, rfl, rfl, hab⟩
    | succ j =>
      obtain ⟨a1, b1, h1, h2, h3⟩ := ih j (by simpa using hj)
      exact ⟨a1, b1, by simpa using h1, by simpa using h2, h3⟩

theorem rooted_nonempty (changes : List Change) (h : ∀ c ∈ changes, ∃ t, c.Path = '/' :: t) :
    ∀ c ∈ changes, c.Kind ≠ ChangeType.ChangeDelete → c.Path ≠ [] := by
  intro c hc _
  obtain ⟨t, ht⟩ := h c hc
  rw [ht]; simp

/-! ## Whiteout entries (C1) -/

/-- C1, as stated, fails: the header written for the Deleted path `/a/b/c` is
named `a/b/.wh.c`, not `/a/b/.wh.c`, and the one for `/b` is named `.wh.b`,
not `/.wh.b`; the slice `whiteOut[1:]` drops the leading separator.  For a
path that is not cleaned, `/a//c`, the name is `a/.wh.c`: `filepath.Join`
cleans the directory part, so the name is not `d + "/.wh." + c` for
`d = "/a/"` even apart from the leading separator. -/
theorem whiteout_name_keeps_no_root :
    eventsOf (exportGoroutine okLib "/x".toList
        [{ Path := "/a/b/c".toList, Kind := ChangeType.ChangeDelete }] 0) =
      some [Event.WriteHeader
              { Name := "a/b/.wh.c".toList, Size := 0, ModTime := 0, AccessTime := 0,
                ChangeTime := 0 } none,
            Event.TarClose none, Event.PipeClose] ∧
    "a/b/.wh.c".toList ≠ "/a/b/.wh.c".toList ∧
    eventsOf (exportGoroutine okLib "/x".toList
        [{ Path := "/b".toList, Kind := ChangeType.ChangeDelete }] 0) =
      some [Event.WriteHeader
              { Name := ".wh.b".toList, Size := 0, ModTime := 0, AccessTime := 0,
                ChangeTime := 0 } none,
            Event.TarClose none, Event.PipeClose] ∧
    ".wh.b".toList ≠ "/.wh.b".toList ∧
    eventsOf (exportGoroutine okLib "/x".toList
        [{ Path := "/a//c".toList, Kind := ChangeType.ChangeDelete }] 0) =
      some [Event.WriteHeader
              { Name := "a/.wh.c".toList, Size := 0, ModTime := 0, AccessTime := 0,
                ChangeTime := 0 } none,
            Event.TarClose none, Event.PipeClose] := by
  decide!

theorem sliceFrom1_absPath (cs : List (List Char)) (y name : List Char)
    (h : sliceFrom1 (absPath cs ++ '/' :: y) = some name) :
    '/' :: name = absPath cs ++ '/' :: y := by
  cases cs with
  | nil =>
    simp only [absPath, List.nil_append, sliceFrom1, Option.some.injEq] at h
    simp [absPath, h]
  | cons c cs1 =>
    simp only [absPath, List.cons_append, sliceFrom1, Option.some.injEq] at h
    simp [absPath, ← h]

/-- C1 (amended): in a run of the export that does not panic, the calls made
before the two closes correspond one to one, in order, to the sorted records,
and for every Deleted record whose Path is `d + "/" + c`, with `d` empty or a
cleaned absolute path and `c` a non-empty final component without separator,
that one call is a `WriteHeader` of a header with Size 0 whose Name is
`d + "/.wh." + c` without its leading separator (`a/b/.wh.c` for `/a/b/c`,
`.wh.b` for `/b`); no `AddTarFile` call is made for the record. -/
theorem whiteout_entry {ω : Type} (lib : Lib ω) (dir : List Char) (changes : List Change)
    (w : ω) (st : ExportState ω) (h : exportGoroutine lib dir changes w = some st) :
    ∃ evs e, st.events = evs ++ [Event.TarClose e, Event.PipeClose] ∧
      List.Forall₂
        (fun c ev =>
          c.Kind = ChangeType.ChangeDelete →
          ∀ (cs : List (List Char)) (x : List Char), (∀ y ∈ cs, IsComp y) → x ≠ [] →
            (∀ ch ∈ x, IsPathSeparator ch = false) → c.Path = absPath cs ++ '/' :: x →
            ∃ hdr err, ev = Event.WriteHeader hdr err ∧ hdr.Size = 0 ∧
              '/' :: hdr.Name = absPath cs ++ '/' :: (whPrefix ++ x))
        (sortSort changes) evs := by
  obtain ⟨evs, e, h1, h2, _⟩ := exportGoroutine_some lib dir changes w st h
  refine ⟨evs, e, h1, List.Forall₂.imp ?_ h2⟩
  intro c ev hp hk cs x hcs hx hsep hpath
  rcases hp with ⟨_, hdr, err, hev, hname, hsize⟩ | ⟨hk2, _⟩
  · refine ⟨hdr, err, hev, hsize, ?_⟩
    rw [hpath, whiteOut_absPath cs hcs x hx hsep] at hname
    exact sliceFrom1_absPath cs _ _ hname
  · exact absurd hk hk2

/-- Witness of C1 (amended): the export of the single Deleted path `/a/b/c` in
a world where nothing fails. -/
theorem whiteout_entry_witness :
    exportGoroutine okLib "/x".toList
        [{ Path := "/a/b/c".toList, Kind := ChangeType.ChangeDelete }] 0 = some whiteoutRun ∧
    ∃ evs e, whiteoutRun.events = evs ++ [Event.TarClose e, Event.PipeClose] ∧
      List.Forall₂
        (fun c ev =>
          c.Kind = ChangeType.ChangeDelete →
          ∀ (cs : List (List Char)) (x : List Char), (∀ y ∈ cs, IsComp y) → x ≠ [] →
            (∀ ch ∈ x, IsPathSeparator ch = false) → c.Path = absPath cs ++ '/' :: x →
            ∃ hdr err, ev = Event.WriteHeader hdr err ∧ hdr.Size = 0 ∧
              '/' :: hdr.Name = absPath cs ++ '/' :: (whPrefix ++ x))
        (sortSort [{ Path := "/a/b/c".toList, Kind := ChangeType.ChangeDelete }]) evs :=
  ⟨by decide!, whiteout_entry okLib "/x".toList
    [{ Path := "/a/b/c".toList, Kind := ChangeType.ChangeDelete }] 0 whiteoutRun (by decide!)⟩

/-! ## The slice expressions (C10) -/

/-- C10: the slice `whiteOut[1:]` of a Deleted record is in bounds for every
Path, the empty one included, because the whiteout string is never empty; for
a Path that begins with the separator it removes exactly the one leading
separator and leaves a non-empty name that does not begin with a separator;
the slice `change.Path[1:]` of any other record is in bounds iff the Path is
non-empty; so the loop body panics on no Deleted record, on another record
iff its Path is empty, and the whole run does not panic when every record
that is not Deleted has a non-empty Path. -/
theorem slices_in_bounds :
    (∀ p : List Char, whiteOut p ≠ [] ∧ ∃ name, sliceFrom1 (whiteOut p) = some name) ∧
    (∀ t : List Char, ∃ name, whiteOut ('/' :: t) = '/' :: name ∧
        sliceFrom1 (whiteOut ('/' :: t)) = some name ∧ name ≠ [] ∧ name.head? ≠ some '/') ∧
    (∀ p : List Char, (∃ name, sliceFrom1 p = some name) ↔ p ≠ []) ∧
    (∀ (ω : Type) (lib : Lib ω) (dir : List Char) (st : ExportState ω) (c : Change),
        (c.Kind = ChangeType.ChangeDelete → ∃ st1, exportStep lib dir st c = some st1) ∧
        (c.Kind ≠ ChangeType.ChangeDelete →
          ((∃ st1, exportStep lib dir st c = some st1) ↔ c.Path ≠ []))) ∧
    (∀ (ω : Type) (lib : Lib ω) (dir : List Char) (changes : List Change) (w : ω),
        (∀ c ∈ changes, c.Kind ≠ ChangeType.ChangeDelete → c.Path ≠ []) →
        ∃ st, exportGoroutine lib dir changes w = some st) := by
  refine ⟨?_, ?_, ?_, ?_, ?_⟩
  · intro p
    obtain ⟨name, hn, _⟩ := sliceFrom1_of_ne_nil _ (whiteOut_ne_nil p)
    exact ⟨whiteOut_ne_nil p, name, hn⟩
  · intro t
    obtain ⟨name, h1, h2, h3⟩ := whiteOut_rooted t
    exact ⟨name, h1, by rw [h1]; rfl, h2, h3⟩
  · intro p
    cases p with
    | nil => simp [sliceFrom1]
    | cons a t => simp [sliceFrom1]
  · intro ω lib dir st c
    constructor
    · intro hk
      exact exportStep_isSome lib dir st c (fun h => absurd hk h)
    · intro hk
      constructor
      · rintro ⟨st1, h⟩ hp
        unfold exportStep at h
        rw [if_neg hk] at h
        simp [hp, sliceFrom1] at h
      · intro hp
        exact exportStep_isSome lib dir st c (fun _ => hp)
  · intro ω lib dir changes w h
    exact exportGoroutine_isSome lib dir changes w h

/-! ## Failures of single records (C4) -/

/-- The paths of change records begin with the separator, and the slice
`change.Path[1:]` relies on it: handed an Added record with the empty Path,
which no detector lists, the goroutine panics at that slice. -/
theorem export_panics_on_empty_path :
    (exportChanges okLib "/x".toList
      [{ Path := [], Kind := ChangeType.ChangeAdd },
       { Path := "/b".toList, Kind := ChangeType.ChangeDelete }] 0).1 = none := by
  decide!

/-- C4: for every change list (the paths of change records begin with the
separator) and whatever the calls return, so for every pattern of failures of
`WriteHeader` and `AddTarFile`, `exportChanges` returns a nil error and its
goroutine makes exactly one call per record, in the order of the sorted list
(a permutation of the input in ascending order of path), logs each error a
call returned, then closes the tar writer and the write end of the pipe, which
leaves the stream ending in `io.EOF`. -/
theorem export_tolerates_failures {ω : Type} (lib : Lib ω) (dir : List Char)
    (changes : List Change) (w : ω) (h : ∀ c ∈ changes, ∃ t, c.Path = '/' :: t) :
    (exportChanges lib dir changes w).2 = none ∧
    ∃ st evs e, (exportChanges lib dir changes w).1 = some st ∧
      st.events = evs ++ [Event.TarClose e, Event.PipeClose] ∧
      List.Forall₂ (ProcessedAs dir) (sortSort changes) evs ∧
      (sortSort changes).Perm changes ∧ (sortSort changes).Sorted pathLE ∧
      st.logs = logsOf st.events ∧
      st.wrerr = some Error.EOF := by
  obtain ⟨st, hst⟩ := exportGoroutine_isSome lib dir changes w (rooted_nonempty changes h)
  obtain ⟨evs, e, h1, h2, h3⟩ := exportGoroutine_some lib dir changes w st hst
  exact ⟨rfl, st, evs, e, hst, h1, h2, sortSort_perm changes, sortSort_sorted changes,
    exportGoroutine_logs lib dir changes w st hst, h3⟩

/-- Witness of C4: the three records of `closedPipeChanges` in a world where
every call fails. -/
theorem export_tolerates_failures_witness :
    (∀ c ∈ closedPipeChanges, ∃ t, c.Path = '/' :: t) ∧
    ((exportChanges (scriptedLib (fun _ => some (Error.other 5))) "/x".toList
        closedPipeChanges 0).2 = none ∧
     ∃ st evs e, (exportChanges (scriptedLib (fun _ => some (Error.other 5))) "/x".toList
        closedPipeChanges 0).1 = some st ∧
      st.events = evs ++ [Event.TarClose e, Event.PipeClose] ∧
      List.Forall₂ (ProcessedAs "/x".toList) (sortSort closedPipeChanges) evs ∧
      (sortSort closedPipeChanges).Perm closedPipeChanges ∧
      (sortSort closedPipeChanges).Sorted pathLE ∧
      st.logs = logsOf st.events ∧
      st.wrerr = some Error.EOF) :=
  have hroot : ∀ c ∈ closedPipeChanges, ∃ t, c.Path = '/' :: t := by
    intro c hc
    simp only [closedPipeChanges, List.mem_cons, List.mem_singleton, List.not_mem_nil,
      or_false] at hc
    rcases hc with rfl | rfl | rfl <;> exact ⟨_, rfl⟩
  ⟨hroot, export_tolerates_failures _ _ _ 0 hroot⟩

/-! ## A closed pipe (C6) -/

/-- C6, as stated, fails: with the read end closed after the first record,
the call for the second record fails with `io.ErrClosedPipe`, and the call
for the third record is made all the same. -/
theorem closed_pipe_does_not_stop_loop :
    eventsOf (exportGoroutine (closedAfter 1) "/x".toList
        [{ Path := "/a".toList, Kind := ChangeType.ChangeDelete },
         { Path := "/b".toList, Kind := ChangeType.ChangeAdd },
         { Path := "/c".toList, Kind := ChangeType.ChangeDelete }] 0) =
      some [Event.WriteHeader
              { Name := ".wh.a".toList, Size := 0, ModTime := 0, AccessTime := 0,
                ChangeTime := 0 } none,
            Event.AddTarFile "/x/b".toList "b".toList (some Error.ErrClosedPipe),
            Event.WriteHeader
              { Name := ".wh.c".toList, Size := 0, ModTime := 2, AccessTime := 2,
                ChangeTime := 2 } (some Error.ErrClosedPipe),
            Event.TarClose (some Error.ErrClosedPipe), Event.PipeClose] := by
  decide!

/-- C6 (amended): in every world and for every change list (the paths of change
records begin with the separator), if the call made for the record at place
`i` of the sorted list fails with the closed-pipe error, the consumer having
closed the read end of the pipe, the producer does not leave the loop: that
call is the one call of record `i`, and for every record behind that one its
one `WriteHeader` or `AddTarFile` call is still made; the log holds exactly
one line for every call that returned an error, in order, the closed-pipe
error among them; and after the last record the tar writer and the write end
of the pipe are closed, which ends the stream in `io.EOF`. -/
theorem export_continues_after_closed_pipe {ω : Type} (lib : Lib ω) (dir : List Char)
    (changes : List Change) (w : ω) (h : ∀ c ∈ changes, ∃ t, c.Path = '/' :: t)
    (i : Nat) (ev : Event) (hlt : i < changes.length)
    (hi : ∃ st, exportGoroutine lib dir changes w = some st ∧ st.events.get? i = some ev)
    (herr : ev.err = some Error.ErrClosedPipe) :
    ∃ st evs e, exportGoroutine lib dir changes w = some st ∧
      st.events = evs ++ [Event.TarClose e, Event.PipeClose] ∧
      List.Forall₂ (ProcessedAs dir) (sortSort changes) evs ∧
      (∃ c, (sortSort changes).get? i = some c ∧ ProcessedAs dir c ev) ∧
      (∀ j, i < j → j < changes.length →
        ∃ c ev2, (sortSort changes).get? j = some c ∧ st.events.get? j = some ev2 ∧
          ProcessedAs dir c ev2) ∧
      st.logs = logsOf st.events ∧
      (∃ l ∈ st.logs, l.err = Error.ErrClosedPipe) ∧
      st.wrerr = some Error.EOF := by
  obtain ⟨st, hst⟩ := exportGoroutine_isSome lib dir changes w (rooted_nonempty changes h)
  obtain ⟨evs, e, h1, h2, h3⟩ := exportGoroutine_some lib dir changes w st hst
  have hlogs := exportGoroutine_logs lib dir changes w st hst
  have hlen : (sortSort changes).length = changes.length := (sortSort_perm changes).length_eq
  have hrec : ∀ j, j < changes.length →
      ∃ c ev2, (sortSort changes).get? j = some c ∧ st.events.get? j = some ev2 ∧
        ProcessedAs dir c ev2 := by
    intro j hj
    obtain ⟨c, ev2, hc, hev2, hp⟩ := forall₂_get? h2 j (by rw [hlen]; exact hj)
    refine ⟨c, ev2, hc, ?_, hp⟩
    have hj2 : j < evs.length := by rw [← h2.length_eq, hlen]; exact hj
    rw [h1, List.get?_eq_getElem?, List.getElem?_append_left hj2, ← List.get?_eq_getElem?]
    exact hev2
  obtain ⟨st0, hst0, hget⟩ := hi
  rw [hst] at hst0
  simp only [Option.some.injEq] at hst0
  subst hst0
  refine ⟨st, evs, e, hst, h1, h2, ?_, fun j _ hj => hrec j hj, hlogs, ?_, h3⟩
  · obtain ⟨c, ev2, hc, hev2, hp⟩ := hrec i hlt
    rw [hget] at hev2
    simp only [Option.some.injEq] at hev2
    subst hev2
    exact ⟨c, hc, hp⟩
  · obtain ⟨l, hl1, hl2⟩ := err_logged ev _ herr
    exact ⟨l, by rw [hlogs]; exact mem_logsOf _ ev l (List.get?_mem hget) hl1, hl2⟩

/-- Witness of C6 (amended): the three records of `closedPipeChanges` with
the read end closed after the first; the call for the second record, at place
1, fails with the closed-pipe error. -/
theorem export_continues_after_closed_pipe_witness :
    (exportGoroutine (closedAfter 1) "/x".toList closedPipeChanges 0 = some closedPipeRun ∧
      closedPipeRun.events.get? 1 =
        some (Event.AddTarFile "/x/b".toList "b".toList (some Error.ErrClosedPipe))) ∧
    ∃ st evs e, exportGoroutine (closedAfter 1) "/x".toList closedPipeChanges 0 = some st ∧
      st.events = evs ++ [Event.TarClose e, Event.PipeClose] ∧
      List.Forall₂ (ProcessedAs "/x".toList) (sortSort closedPipeChanges) evs ∧
      (∃ c, (sortSort closedPipeChanges).get? 1 = some c ∧
        ProcessedAs "/x".toList c
          (Event.AddTarFile "/x/b".toList "b".toList (some Error.ErrClosedPipe))) ∧
      (∀ j, 1 < j → j < closedPipeChanges.length →
        ∃ c ev2, (sortSort closedPipeChanges).get? j = some c ∧
          st.events.get? j = some ev2 ∧ ProcessedAs "/x".toList c ev2) ∧
      st.logs = logsOf st.events ∧
      (∃ l ∈ st.logs, l.err = Error.ErrClosedPipe) ∧
      st.wrerr = some Error.EOF :=
  ⟨⟨by decide!, by decide!⟩,
    export_continues_after_closed_pipe (closedAfter 1) "/x".toList closedPipeChanges 0
      (by
        intro c hc
        simp only [closedPipeChanges, List.mem_cons, List.mem_singleton, List.not_mem_nil,
          or_false] at hc
        rcases hc with rfl | rfl | rfl <;> exact ⟨_, rfl⟩)
      1 (Event.AddTarFile "/x/b".toList "b".toList (some Error.ErrClosedPipe)) (by decide)
      ⟨closedPipeRun, by decide!, by decide!⟩ rfl⟩

/-! ## The error of the tar `Close` (C5) -/

theorem ioCopy_EOF (d : Option Error) : ioCopy d (some Error.EOF) = d := by
  cases d <;> rfl

theorem ProcessedAs_ne_TarClose (dir : List Char) (c : Change) (ev : Event) (e : Option Error)
    (h : ProcessedAs dir c ev) : ev ≠ Event.TarClose e := by
  rcases h with ⟨_, hdr, err, hev, _⟩ | ⟨_, name, err, hev, _⟩ <;> rw [hev] <;> simp

theorem forall₂_mem_right {α β : Type} {R : α → β → Prop} {l1 : List α} {l2 : List β}
    (h : List.Forall₂ R l1 l2) {b : β} (hb : b ∈ l2) : ∃ a, a ∈ l1 ∧ R a b := by
  induction h with
  | nil => simp at hb
  | cons hab _ ih =>
    rcases List.mem_cons.mp hb with rfl | hb1
    · exact ⟨_, List.mem_cons_self _ _, hab⟩
    · obtain ⟨a, ha, hr⟩ := ih hb1
      exact ⟨a, List.mem_cons_of_mem _ ha, hr⟩

theorem CreateLayer_ok {ω : Type} (h : Host ω) (child parent dest : List Char)
    (changes : List Change) (st : ExportState ω)
    (hc : h.ChangesDirs child parent = Except.ok changes)
    (hf : h.Create (layerFilename child dest) = none)
    (hst : exportGoroutine h.lib child changes h.world = some st) :
    CreateLayer h child parent dest =
      some { filename := some (layerFilename child dest), err := ioCopy h.destWrite st.wrerr } := by
  simp [CreateLayer, Diff, hc, exportChanges, hf, hst]

/-- C5, as stated, fails: when `ta.TarWriter.Close()` returns an error, the
write end is still closed with the plain `Close`, the stream ends in `io.EOF`
and `CreateLayer` returns nil. -/
theorem close_error_not_propagated :
    eventsOf (exportGoroutine failingClose "/x".toList
        [{ Path := "/a".toList, Kind := ChangeType.ChangeAdd }] 0) =
      some [Event.AddTarFile "/x/a".toList "a".toList none,
            Event.TarClose (some (Error.other 7)), Event.PipeClose] ∧
    wrerrOf (exportGoroutine failingClose "/x".toList
        [{ Path := "/a".toList, Kind := ChangeType.ChangeAdd }] 0) = some (some Error.EOF) ∧
    CreateLayer failingCloseHost "/x".toList [] [] =
      some { filename := some "/x.tar".toList, err := none } := by
  decide!

/-- C5 (amended): an error of `ta.TarWriter.Close()` at the end of an export
is only logged; the write end of the pipe is then closed without an error, so
the stream ends in `io.EOF`, and when detection and the creation of the
destination file succeed, `CreateLayer` returns the first error of a write to
the destination file, nil if there is none. -/
theorem close_error_only_logged {ω : Type} (h : Host ω) (child parent dest : List Char)
    (changes : List Change) (hc : h.ChangesDirs child parent = Except.ok changes)
    (hv : ∀ c ∈ changes, c.Kind ≠ ChangeType.ChangeDelete → c.Path ≠ [])
    (hf : h.Create (layerFilename child dest) = none) :
    ∃ st, exportGoroutine h.lib child changes h.world = some st ∧
      st.wrerr = some Error.EOF ∧
      CreateLayer h child parent dest =
        some { filename := some (layerFilename child dest), err := h.destWrite } ∧
      ∀ e, Event.TarClose (some e) ∈ st.events →
        ({ format := "Can't close layer: %s", path := none, err := e } : LogLine) ∈ st.logs := by
  obtain ⟨st, hst⟩ := exportGoroutine_isSome h.lib child changes h.world hv
  obtain ⟨evs, e0, h1, h2, h3⟩ := exportGoroutine_some h.lib child changes h.world st hst
  refine ⟨st, hst, h3, ?_, ?_⟩
  · rw [CreateLayer_ok h child parent dest changes st hc hf hst, h3, ioCopy_EOF]
  · intro e he
    unfold exportGoroutine at hst
    simp only at hst
    cases hl : exportLoop h.lib child (sortSort changes)
        { world := h.world, SeenFiles := [], events := [], logs := [], wrerr := none } with
    | none => simp [hl] at hst
    | some st2 =>
      simp only [hl, Option.some.injEq] at hst
      obtain ⟨evs2, hv1, hv2, _⟩ := exportLoop_some h.lib child _ _ _ hl
      subst hst
      simp only [exportFinish] at he ⊢
      rw [hv1] at he
      simp only [List.nil_append, List.mem_append, List.mem_cons, Event.TarClose.injEq,
        List.mem_singleton, reduceCtorEq, or_false, List.not_mem_nil] at he
      rcases he with he | he
      · obtain ⟨c, _, hp⟩ := forall₂_mem_right hv2 he
        exact absurd rfl (ProcessedAs_ne_TarClose _ _ _ _ hp)
      · rw [← he]
        simp [logIfErr]

/-- Witness of C5 (amended): the host in which only the tar `Close` fails. -/
theorem close_error_only_logged_witness :
    failingCloseHost.ChangesDirs "/x".toList [] =
      Except.ok [{ Path := "/a".toList, Kind := ChangeType.ChangeAdd }] ∧
    ∃ st, exportGoroutine failingCloseHost.lib "/x".toList
        [{ Path := "/a".toList, Kind := ChangeType.ChangeAdd }] failingCloseHost.world = some st ∧
      st.wrerr = some Error.EOF ∧
      CreateLayer failingCloseHost "/x".toList [] [] =
        some { filename := some (layerFilename "/x".toList []),
               err := failingCloseHost.destWrite } ∧
      ∀ e, Event.TarClose (some e) ∈ st.events →
        ({ format := "Can't close layer: %s", path := none, err := e } : LogLine) ∈ st.logs :=
  ⟨rfl, close_error_only_logged failingCloseHost "/x".toList [] []
    [{ Path := "/a".toList, Kind := ChangeType.ChangeAdd }] rfl (by decide) rfl⟩

/-! ## `CreateLayer` and `Diff` (C8, C9) -/

/-- C8: `CreateLayer` returns the error of its first failing step.  When
`ChangesDirs` fails, `Diff` returns a nil stream with that error and
`CreateLayer` returns it without creating a file; otherwise `Diff` returns the
export stream with a nil error, and `CreateLayer` returns the error of
`os.Create` when that fails and else the result of `io.Copy`; it returns nil
iff detection, file creation and the copy all succeed; and it does return
whenever the detector lists no Added or Modified record with an empty path. -/
theorem CreateLayer_returns_first_error {ω : Type} (h : Host ω)
    (child parent dest : List Char) :
    (∀ e, h.ChangesDirs child parent = Except.error e →
      Diff h child parent = (none, some e) ∧
      CreateLayer h child parent dest = some { filename := none, err := some e }) ∧
    (∀ changes, h.ChangesDirs child parent = Except.ok changes →
      Diff h child parent = (some (exportGoroutine h.lib child changes h.world), none) ∧
      (∀ e, h.Create (layerFilename child dest) = some e →
        CreateLayer h child parent dest =
          some { filename := some (layerFilename child dest), err := some e }) ∧
      (h.Create (layerFilename child dest) = none →
        ∀ st, exportGoroutine h.lib child changes h.world = some st →
          CreateLayer h child parent dest =
            some { filename := some (layerFilename child dest),
                   err := ioCopy h.destWrite st.wrerr })) ∧
    (∀ r, CreateLayer h child parent dest = some r →
      (r.err = none ↔
        (∃ changes, h.ChangesDirs child parent = Except.ok changes) ∧
          h.Create (layerFilename child dest) = none ∧ h.destWrite = none)) ∧
    (∀ changes, h.ChangesDirs child parent = Except.ok changes →
      (∀ c ∈ changes, c.Kind ≠ ChangeType.ChangeDelete → c.Path ≠ []) →
      ∃ r, CreateLayer h child parent dest = some r) := by
  refine ⟨?_, ?_, ?_, ?_⟩
  · intro e he
    simp [CreateLayer, Diff, he]
  · intro changes hc
    refine ⟨by simp [Diff, hc, exportChanges], ?_, ?_⟩
    · intro e he
      simp [CreateLayer, Diff, hc, exportChanges, he]
    · intro hf st hst
      exact CreateLayer_ok h child parent dest changes st hc hf hst
  · intro r hr
    cases hc : h.ChangesDirs child parent with
    | error e =>
      simp only [CreateLayer, Diff, hc, Option.some.injEq] at hr
      subst hr
      simp
    | ok changes =>
      cases hf : h.Create (layerFilename child dest) with
      | some e =>
        simp only [CreateLayer, Diff, hc, exportChanges, hf, Option.some.injEq] at hr
        subst hr
        simp
      | none =>
        cases hst : exportGoroutine h.lib child changes h.world with
        | none => simp [CreateLayer, Diff, hc, exportChanges, hf, hst] at hr
        | some st =>
          rw [CreateLayer_ok h child parent dest changes st hc hf hst] at hr
          obtain ⟨_, _, _, _, h3⟩ := exportGoroutine_some h.lib child changes h.world st hst
          simp only [Option.some.injEq] at hr
          subst hr
          simp [h3, ioCopy_EOF]
  · intro changes hc hv
    obtain ⟨st, hst⟩ := exportGoroutine_isSome h.lib child changes h.world hv
    cases hf : h.Create (layerFilename child dest) with
    | some e =>
      exact ⟨{ filename := some (layerFilename child dest), err := some e },
        by simp [CreateLayer, Diff, hc, exportChanges, hf]⟩
    | none => exact ⟨_, CreateLayer_ok h child parent dest changes st hc hf hst⟩

/-- C9: the name of the file `CreateLayer` creates is `layerFilename child
dest`, in which `parent` does not occur: for the empty `dest`, the value of
the flag when it is not given, it is `filepath.Clean(child) + ".tar"`, for any
other `dest` it is `filepath.Clean(dest)` whatever `child` is, and a slash put
behind a non-empty `child` does not change it. -/
theorem layerFilename_spec {ω : Type} (h : Host ω) (child parent dest : List Char) :
    (∀ r f, CreateLayer h child parent dest = some r → r.filename = some f →
      f = layerFilename child dest) ∧
    layerFilename child defaultDest = Clean child ++ ".tar".toList ∧
    (dest ≠ [] → ∀ child2, layerFilename child2 dest = Clean dest) ∧
    (child ≠ [] → layerFilename (child ++ ['/']) [] = layerFilename child []) := by
  refine ⟨?_, rfl, ?_, ?_⟩
  · intro r f hr hf
    cases hc : h.ChangesDirs child parent with
    | error e =>
      simp only [CreateLayer, Diff, hc, Option.some.injEq] at hr
      subst hr
      simp at hf
    | ok changes =>
      cases hcr : h.Create (layerFilename child dest) with
      | some e =>
        simp only [CreateLayer, Diff, hc, exportChanges, hcr, Option.some.injEq] at hr
        subst hr
        simp only [Option.some.injEq] at hf
        exact hf.symm
      | none =>
        cases hst : exportGoroutine h.lib child changes h.world with
        | none => simp [CreateLayer, Diff, hc, exportChanges, hcr, hst] at hr
        | some st =>
          rw [CreateLayer_ok h child parent dest changes st hc hcr hst] at hr
          simp only [Option.some.injEq] at hr
          subst hr
          simp only [Option.some.injEq] at hf
          exact hf.symm
  · intro hd child2
    simp [layerFilename, hd]
  · intro hc
    simp [layerFilename, Clean_append_slash child hc]

/-! ## The order of the entries (C2) -/

/-- C2, as stated, fails: for the added `/a` and the deleted `/b`, with no
failing write, the entries are emitted in the order of the paths, `a` before
`.wh.b`, but `.wh.b` sorts before `a`; the same holds for the names with their
leading separator. -/
theorem whiteout_names_out_of_order :
    namesOf (exportGoroutine okLib "/x".toList
        [{ Path := "/a".toList, Kind := ChangeType.ChangeAdd },
         { Path := "/b".toList, Kind := ChangeType.ChangeDelete }] 0) =
      some ["a".toList, ".wh.b".toList] ∧
    ¬ StrictlyIncreasing ["a".toList, ".wh.b".toList] ∧
    (sortSort [{ Path := "/a".toList, Kind := ChangeType.ChangeAdd },
               { Path := "/b".toList, Kind := ChangeType.ChangeDelete }]).map claimedName =
      ["/a".toList, "/.wh.b".toList] ∧
    ¬ StrictlyIncreasing ["/a".toList, "/.wh.b".toList] := by
  decide!

theorem addedNames_of_processed (dir : List Char) (cs : List Change) (evs : List Event)
    (h : List.Forall₂ (ProcessedAs dir) cs evs) :
    addedNames evs =
      (cs.filter (fun c => decide (c.Kind ≠ ChangeType.ChangeDelete))).map
        (fun c => c.Path.tail) := by
  induction h with
  | nil => rfl
  | @cons c ev cs1 evs1 hab _ ih =>
    rcases hab with ⟨hk, hdr, err, hev, _⟩ | ⟨hk, name, err, hev, hn⟩
    · subst hev
      simp only [addedNames, List.filterMap_cons, Event.addedName] at ih ⊢
      rw [ih]
      simp [List.filter_cons, hk]
    · subst hev
      simp only [addedNames, List.filterMap_cons, Event.addedName] at ih ⊢
      rw [ih]
      have : c.Path.tail = name := by
        cases hp : c.Path with
        | nil => rw [hp] at hn; simp [sliceFrom1] at hn
        | cons a t => rw [hp] at hn; simpa [sliceFrom1] using hn
      simp [List.filter_cons, hk, this]

/-- C2 (amended): for every change list with pairwise distinct paths that
each begin with the separator, the goroutine does not panic and makes its
calls in strictly increasing byte-wise order of the records' paths, one call
per record; the names of the entries of the Added and Modified records, taken
in emission order, are strictly increasing.  The whiteout of a Deleted record
is emitted at the place of the deleted path, whatever its own name. -/
theorem export_in_path_order {ω : Type} (lib : Lib ω) (dir : List Char)
    (changes : List Change) (w : ω) (hd : (changes.map Change.Path).Nodup)
    (hr : ∀ c ∈ changes, ∃ t, c.Path = '/' :: t) :
    ∃ st evs e, exportGoroutine lib dir changes w = some st ∧
      st.events = evs ++ [Event.TarClose e, Event.PipeClose] ∧
      List.Forall₂ (ProcessedAs dir) (sortSort changes) evs ∧
      (sortSort changes).Sorted pathLT ∧
      StrictlyIncreasing (addedNames st.events) := by
  have hv : ∀ c ∈ changes, c.Kind ≠ ChangeType.ChangeDelete → c.Path ≠ [] := by
    intro c hc _
    obtain ⟨t, ht⟩ := hr c hc
    rw [ht]; simp
  obtain ⟨st, hst⟩ := exportGoroutine_isSome lib dir changes w hv
  obtain ⟨evs, e, h1, h2, _⟩ := exportGoroutine_some lib dir changes w st hst
  have hs := sortSort_strict changes hd
  refine ⟨st, evs, e, hst, h1, h2, hs, ?_⟩
  have h3 : addedNames st.events = addedNames evs := by
    rw [h1]
    simp [addedNames, List.filterMap_append, Event.addedName]
  rw [h3, addedNames_of_processed dir _ _ h2]
  unfold StrictlyIncreasing
  rw [List.Sorted, List.pairwise_map]
  have h4 : (sortSort changes).Pairwise
      (fun a b => strLess a.Path.tail b.Path.tail = true) := by
    refine List.Pairwise.imp_of_mem ?_ hs
    intro a b ha hb hab
    obtain ⟨ta, hta⟩ := hr a ((sortSort_perm changes).mem_iff.mp ha)
    obtain ⟨tb, htb⟩ := hr b ((sortSort_perm changes).mem_iff.mp hb)
    unfold pathLT changesByPath.Less at hab
    rw [hta, htb, strLess_cons] at hab
    rw [hta, htb]
    exact hab
  exact h4.sublist (List.filter_sublist _)

/-- Witness of C2 (amended): three records listed out of order. -/
theorem export_in_path_order_witness :
    (([{ Path := "/b".toList, Kind := ChangeType.ChangeDelete },
       { Path := "/c".toList, Kind := ChangeType.ChangeModify },
       { Path := "/a".toList, Kind := ChangeType.ChangeAdd }] : List Change).map
        Change.Path).Nodup ∧
    ∃ st evs e, exportGoroutine okLib "/x".toList
        [{ Path := "/b".toList, Kind := ChangeType.ChangeDelete },
         { Path := "/c".toList, Kind := ChangeType.ChangeModify },
         { Path := "/a".toList, Kind := ChangeType.ChangeAdd }] 0 = some st ∧
      st.events = evs ++ [Event.TarClose e, Event.PipeClose] ∧
      List.Forall₂ (ProcessedAs "/x".toList)
        (sortSort [{ Path := "/b".toList, Kind := ChangeType.ChangeDelete },
                   { Path := "/c".toList, Kind := ChangeType.ChangeModify },
                   { Path := "/a".toList, Kind := ChangeType.ChangeAdd }]) evs ∧
      (sortSort [{ Path := "/b".toList, Kind := ChangeType.ChangeDelete },
                 { Path := "/c".toList, Kind := ChangeType.ChangeModify },
                 { Path := "/a".toList, Kind := ChangeType.ChangeAdd }]).Sorted pathLT ∧
      StrictlyIncreasing (addedNames st.events) :=
  ⟨by decide, export_in_path_order okLib _ _ 0 (by decide) (by
    intro c hc
    simp only [List.mem_cons, List.mem_singleton, List.not_mem_nil, or_false] at hc
    rcases hc with rfl | rfl | rfl <;> exact ⟨_, rfl⟩)⟩

/-! ## Independence of the order of detection (C7) -/

theorem exportStep_related {ω1 ω2 : Type} (lib1 : Lib ω1) (lib2 : Lib ω2)
    (R : ω1 → ω2 → Prop) (hsim : SameOutside lib1 lib2 R) (dir : List Char) (c : Change)
    (s1 : ExportState ω1) (s2 : ExportState ω2) (h : Related R s1 s2) :
    RelatedRun R (exportStep lib1 dir s1 c) (exportStep lib2 dir s2 c) := by
  obtain ⟨hw, hseen, hev, hlog, hwr⟩ := h
  unfold exportStep
  by_cases hk : c.Kind = ChangeType.ChangeDelete
  · simp only [if_pos hk]
    cases hn : sliceFrom1 (whiteOut c.Path) with
    | none => simp [RelatedRun]
    | some name =>
      simp only [RelatedRun, Related]
      obtain ⟨h1, h2⟩ := hsim.writeHeader s1.world s2.world
        { Name := name, Size := 0, ModTime := lib1.Now s1.world,
          AccessTime := lib1.Now s1.world, ChangeTime := lib1.Now s1.world }
        { Name := name, Size := 0, ModTime := lib2.Now s2.world,
          AccessTime := lib2.Now s2.world, ChangeTime := lib2.Now s2.world } hw rfl
      refine ⟨h1, hseen, ?_, ?_, hwr⟩
      · simp [hev, Event.eraseTimes, Header.eraseTimes, h2]
      · rw [hlog, h2]
  · simp only [if_neg hk]
    cases hn : sliceFrom1 c.Path with
    | none => simp [RelatedRun]
    | some name =>
      simp only [RelatedRun, Related]
      obtain ⟨h1, h2, h3⟩ := hsim.addTarFile s1.world s2.world s1.SeenFiles
        (Join [dir, c.Path]) name hw
      rw [← hseen]
      refine ⟨h1, h2, ?_, ?_, hwr⟩
      · simp [hev, Event.eraseTimes, h3]
      · rw [hlog, h3]

theorem exportLoop_related {ω1 ω2 : Type} (lib1 : Lib ω1) (lib2 : Lib ω2)
    (R : ω1 → ω2 → Prop) (hsim : SameOutside lib1 lib2 R) (dir : List Char)
    (cs : List Change) :
    ∀ (s1 : ExportState ω1) (s2 : ExportState ω2), Related R s1 s2 →
      RelatedRun R (exportLoop lib1 dir cs s1) (exportLoop lib2 dir cs s2) := by
  induction cs with
  | nil => intro s1 s2 h; exact h
  | cons c cs ih =>
    intro s1 s2 h
    have hs := exportStep_related lib1 lib2 R hsim dir c s1 s2 h
    unfold exportLoop
    cases h1 : exportStep lib1 dir s1 c with
    | none =>
      cases h2 : exportStep lib2 dir s2 c with
      | none => simp [RelatedRun]
      | some b => rw [h1, h2] at hs; exact absurd hs (by simp [RelatedRun])
    | some a =>
      cases h2 : exportStep lib2 dir s2 c with
      | none => rw [h1, h2] at hs; exact absurd hs (by simp [RelatedRun])
      | some b =>
        rw [h1, h2] at hs
        exact ih a b hs

/-- C7: the export does not depend on the order in which the detector lists
the changes.  For two change lists that are permutations of each other, with
pairwise distinct paths, run against the same outside world (related start
worlds and calls that behave alike, the clock left free), the two runs both
panic or both end, and then they have made the same calls with the same
results in the same order, up to the times in whiteout headers, with equal
logs, equal `SeenFiles`, the same end of stream and related final worlds. -/
theorem export_deterministic {ω1 ω2 : Type} (lib1 : Lib ω1) (lib2 : Lib ω2)
    (R : ω1 → ω2 → Prop) (hsim : SameOutside lib1 lib2 R) (dir : List Char)
    (l1 l2 : List Change) (hp : l1.Perm l2) (hd : (l1.map Change.Path).Nodup)
    (w1 : ω1) (w2 : ω2) (hw : R w1 w2) :
    RelatedRun R (exportGoroutine lib1 dir l1 w1) (exportGoroutine lib2 dir l2 w2) := by
  have hl := exportLoop_related lib1 lib2 R hsim dir (sortSort l1)
    { world := w1, SeenFiles := [], events := [], logs := [], wrerr := none }
    { world := w2, SeenFiles := [], events := [], logs := [], wrerr := none }
    ⟨hw, rfl, rfl, rfl, rfl⟩
  unfold exportGoroutine
  simp only
  rw [← sortSort_eq_of_perm l1 l2 hp hd]
  cases h1 : exportLoop lib1 dir (sortSort l1)
      { world := w1, SeenFiles := [], events := [], logs := [], wrerr := none } with
  | none =>
    cases h2 : exportLoop lib2 dir (sortSort l1)
        { world := w2, SeenFiles := [], events := [], logs := [], wrerr := none } with
    | none => simp [RelatedRun]
    | some b => rw [h1, h2] at hl; exact absurd hl (by simp [RelatedRun])
  | some a =>
    cases h2 : exportLoop lib2 dir (sortSort l1)
        { world := w2, SeenFiles := [], events := [], logs := [], wrerr := none } with
    | none => rw [h1, h2] at hl; exact absurd hl (by simp [RelatedRun])
    | some b =>
      rw [h1, h2] at hl
      obtain ⟨hw1, hseen, hev, hlog, _⟩ := hl
      obtain ⟨hc1, hc2⟩ := hsim.tarClose a.world b.world hw1
      simp only [RelatedRun, Related, exportFinish]
      refine ⟨hc1, hseen, ?_, ?_, trivial⟩
      · simp [hev, Event.eraseTimes, hc2]
      · rw [hlog, hc2]

theorem specLib_sameOutside (fs : List Char → Option FileInfo) :
    SameOutside (specLib fs) (specLib fs) sameEntries where
  writeHeader := by
    intro w1 w2 h1 h2 hw hh
    simp [specLib, sameEntries, Entry.eraseTimes, hh] at hw ⊢
    exact hw
  addTarFile := by
    intro w1 w2 seen path name hw
    simp only [specLib, specAddTarFile, sameEntries] at hw ⊢
    cases fs path with
    | none => exact ⟨hw, rfl, rfl⟩
    | some fi =>
      simp only
      split
      · cases lookupSeen fi.key seen with
        | none => simp [hw, Entry.eraseTimes]
        | some first => simp [hw, Entry.eraseTimes]
      · simp [hw, Entry.eraseTimes]
  tarClose := by
    intro w1 w2 hw
    exact ⟨hw, rfl⟩

/-- Witness of C7: the changes of the linked filesystem listed in two orders
and exported at two different times. -/
theorem export_deterministic_witness :
    linkedChanges.Perm linkedChanges.reverse ∧
    (linkedChanges.map Change.Path).Nodup ∧
    sameEntries { clock := 0, entries := [] } { clock := 1000, entries := [] } ∧
    RelatedRun sameEntries
      (exportGoroutine (specLib linkedFs) "/x".toList linkedChanges
        { clock := 0, entries := [] })
      (exportGoroutine (specLib linkedFs) "/x".toList linkedChanges.reverse
        { clock := 1000, entries := [] }) :=
  ⟨(List.reverse_perm linkedChanges).symm, by decide, rfl,
    export_deterministic (specLib linkedFs) (specLib linkedFs) sameEntries
      (specLib_sameOutside linkedFs) "/x".toList linkedChanges linkedChanges.reverse
      (List.reverse_perm linkedChanges).symm (by decide)
      { clock := 0, entries := [] } { clock := 1000, entries := [] } rfl⟩

/-! ## Hardlinks (C3) -/

theorem spec_add_other (fs : List Char → Option FileInfo) (w : TarStream) (seen : SeenFiles)
    (path name : List Char) (k : Nat) (n1 : List Char)
    (hkey : ∀ fi, fs path = some fi → fi.kind = FileKind.regular → fi.key ≠ k)
    (hname : name ≠ n1) (hJ : OnlyKey k n1 seen) :
    ∃ new, (specAddTarFile fs w seen path name).1.1.entries = w.entries ++ new ∧
      new.filter (isFullOf k) = [] ∧ new.filter (isLinkTo n1) = [] ∧
      OnlyKey k n1 (specAddTarFile fs w seen path name).1.2 ∧
      lookupSeen k (specAddTarFile fs w seen path name).1.2 = lookupSeen k seen := by
  unfold specAddTarFile
  cases hfs : fs path with
  | none => exact ⟨[], by simp, rfl, rfl, hJ, rfl⟩
  | some fi =>
    simp only
    by_cases hreg : fi.kind = FileKind.regular
    · have hk := hkey fi hfs hreg
      rw [if_pos hreg]
      cases hl : lookupSeen fi.key seen with
      | some first =>
        simp only
        refine ⟨[Entry.hardlink name first], rfl, rfl, ?_, hJ, trivial⟩
        have : first ≠ n1 := fun h => hk (hJ fi.key first hl h)
        simp [List.filter, isLinkTo, this]
      | none =>
        simp only
        by_cases hnl : 1 < fi.nlink
        · simp only [if_pos hnl]
          refine ⟨[Entry.full name fi], rfl, ?_, rfl, ?_, ?_⟩
          · simp [List.filter, isFullOf, hk]
          · intro k1 n hlook hn
            simp only [lookupSeen] at hlook
            by_cases h1 : fi.key = k1
            · rw [if_pos h1] at hlook
              simp only [Option.some.injEq] at hlook
              exact absurd (hlook.trans hn) hname
            · rw [if_neg h1] at hlook
              exact hJ k1 n hlook hn
          · simp [lookupSeen, hk]
        · simp only [if_neg hnl]
          refine ⟨[Entry.full name fi], rfl, ?_, rfl, hJ, trivial⟩
          simp [List.filter, isFullOf, hk]
    · rw [if_neg hreg]
      refine ⟨[Entry.full name fi], rfl, ?_, rfl, hJ, rfl⟩
      simp [List.filter, isFullOf, hreg]

theorem exportStep_spec_add (fs : List Char → Option FileInfo) (dir : List Char)
    (st : ExportState TarStream) (c : Change) (t : List Char)
    (hk : c.Kind ≠ ChangeType.ChangeDelete) (hp : c.Path = '/' :: t) :
    ∃ st1, exportStep (specLib fs) dir st c = some st1 ∧
      st1.world = (specAddTarFile fs st.world st.SeenFiles (Join [dir, c.Path]) t).1.1 ∧
      st1.SeenFiles = (specAddTarFile fs st.world st.SeenFiles (Join [dir, c.Path]) t).1.2 := by
  unfold exportStep
  rw [if_neg hk]
  simp only [hp, sliceFrom1]
  exact ⟨_, rfl, rfl, rfl⟩

theorem exportStep_spec_del (fs : List Char → Option FileInfo) (dir : List Char)
    (st : ExportState TarStream) (c : Change) (hk : c.Kind = ChangeType.ChangeDelete) :
    ∃ st1 hdr, exportStep (specLib fs) dir st c = some st1 ∧
      st1.world.entries = st.world.entries ++ [Entry.whiteout hdr] ∧
      st1.SeenFiles = st.SeenFiles := by
  unfold exportStep
  rw [if_pos hk]
  obtain ⟨name, hn, _⟩ := sliceFrom1_of_ne_nil _ (whiteOut_ne_nil c.Path)
  simp only [hn]
  exact ⟨_, _, rfl, rfl, rfl⟩

/-- The loop over records that do not name the object with IdentityKey `k`
emits neither a standard entry of that object nor a hardlink to `n1`, and
leaves the mapping of `k` as it was. -/
theorem exportLoop_others (fs : List Char → Option FileInfo) (dir : List Char) (k : Nat)
    (n1 : List Char) (cs : List Change) (hcs : Others fs dir k n1 cs) :
    ∀ (st : ExportState TarStream), OnlyKey k n1 st.SeenFiles →
      ∃ st1 new, exportLoop (specLib fs) dir cs st = some st1 ∧
        st1.world.entries = st.world.entries ++ new ∧
        new.filter (isFullOf k) = [] ∧ new.filter (isLinkTo n1) = [] ∧
        OnlyKey k n1 st1.SeenFiles ∧
        lookupSeen k st1.SeenFiles = lookupSeen k st.SeenFiles := by
  induction cs with
  | nil =>
    intro st hJ
    exact ⟨st, [], rfl, by simp, rfl, rfl, hJ, rfl⟩
  | cons c cs ih =>
    intro st hJ
    obtain ⟨⟨t, ht⟩, hname, hkey⟩ := hcs c (List.mem_cons_self _ _)
    have hrest : Others fs dir k n1 cs := fun x hx => hcs x (List.mem_cons_of_mem _ hx)
    by_cases hk : c.Kind = ChangeType.ChangeDelete
    · obtain ⟨st2, hdr, hs, he, hseen⟩ := exportStep_spec_del fs dir st c hk
      obtain ⟨st1, new, hl, hn1, hn2, hn3, hn4, hn5⟩ := ih hrest st2 (by rw [hseen]; exact hJ)
      refine ⟨st1, Entry.whiteout hdr :: new, ?_, ?_, ?_, ?_, hn4, by rw [hn5, hseen]⟩
      · unfold exportLoop; simp only [hs]; exact hl
      · rw [hn1, he]; simp
      · simpa [List.filter_cons, isFullOf] using hn2
      · simpa [List.filter_cons, isLinkTo] using hn3
    · obtain ⟨st2, hs, hw, hseen⟩ := exportStep_spec_add fs dir st c t hk ht
      have hname2 : t ≠ n1 := by rw [ht] at hname; exact hname
      obtain ⟨new0, ha1, ha2, ha3, ha4, ha5⟩ :=
        spec_add_other fs st.world st.SeenFiles (Join [dir, c.Path]) t k n1 (hkey hk) hname2 hJ
      obtain ⟨st1, new, hl, hn1, hn2, hn3, hn4, hn5⟩ := ih hrest st2 (by rw [hseen]; exact ha4)
      refine ⟨st1, new0 ++ new, ?_, ?_, ?_, ?_, hn4, by rw [hn5, hseen, ha5]⟩
      · unfold exportLoop; simp only [hs]; exact hl
      · rw [hn1, hw, ha1]; simp
      · simp [List.filter_append, ha2, hn2]
      · simp [List.filter_append, ha3, hn3]

theorem exportLoop_cons_some {ω : Type} (lib : Lib ω) (dir : List Char) (c : Change)
    (cs : List Change) (st st2 : ExportState ω) (h : exportStep lib dir st c = some st2) :
    exportLoop lib dir (c :: cs) st = exportLoop lib dir cs st2 := by
  rw [exportLoop]
  simp only [h]

theorem exportLoop_append {ω : Type} (lib : Lib ω) (dir : List Char) (xs ys : List Change) :
    ∀ (st st1 : ExportState ω), exportLoop lib dir xs st = some st1 →
      exportLoop lib dir (xs ++ ys) st = exportLoop lib dir ys st1 := by
  induction xs with
  | nil =>
    intro st st1 h
    simp only [exportLoop, Option.some.injEq] at h
    subst h
    rfl
  | cons c cs ih =>
    intro st st1 h
    unfold exportLoop at h
    cases hs : exportStep lib dir st c with
    | none => simp [hs] at h
    | some st2 =>
      simp only [hs] at h
      rw [List.cons_append, exportLoop_cons_some lib dir c _ st st2 hs]
      exact ih st2 st1 h

theorem spec_add_first (fs : List Char → Option FileInfo) (w : TarStream) (seen : SeenFiles)
    (path name : List Char) (fi : FileInfo) (hfs : fs path = some fi)
    (hreg : fi.kind = FileKind.regular) (hl : lookupSeen fi.key seen = none)
    (hnl : 1 < fi.nlink) :
    specAddTarFile fs w seen path name =
      (({ w with entries := w.entries ++ [Entry.full name fi] }, (fi.key, name) :: seen),
        none) := by
  simp [specAddTarFile, hfs, hreg, hl, hnl]

theorem spec_add_second (fs : List Char → Option FileInfo) (w : TarStream) (seen : SeenFiles)
    (path name first : List Char) (fi : FileInfo) (hfs : fs path = some fi)
    (hreg : fi.kind = FileKind.regular) (hl : lookupSeen fi.key seen = some first) :
    specAddTarFile fs w seen path name =
      (({ w with entries := w.entries ++ [Entry.hardlink name first] }, seen), none) := by
  simp [specAddTarFile, hfs, hreg, hl]

/-- The loop over a list in which `c1` comes before `c2`, both name the same
regular file with more than one link and no other record names it, started
with an empty map: among the new entries the only standard entry of the file
is the one named after `c1`, and the only hardlink to that name is the one
named after `c2`. -/
theorem exportLoop_linked (fs : List Char → Option FileInfo) (dir : List Char)
    (A B C : List Change) (c1 c2 : Change) (t1 t2 : List Char) (fi1 fi2 : FileInfo)
    (hp1 : c1.Path = '/' :: t1) (hp2 : c2.Path = '/' :: t2)
    (hk1 : c1.Kind ≠ ChangeType.ChangeDelete) (hk2 : c2.Kind ≠ ChangeType.ChangeDelete)
    (hs1 : fs (Join [dir, c1.Path]) = some fi1) (hs2 : fs (Join [dir, c2.Path]) = some fi2)
    (hreg1 : fi1.kind = FileKind.regular) (hreg2 : fi2.kind = FileKind.regular)
    (hkey : fi2.key = fi1.key) (hnl : 1 < fi1.nlink)
    (hA : Others fs dir fi1.key t1 A) (hB : Others fs dir fi1.key t1 B)
    (hC : Others fs dir fi1.key t1 C) (st : ExportState TarStream)
    (hseen : st.SeenFiles = []) :
    ∃ st1 new, exportLoop (specLib fs) dir (A ++ c1 :: (B ++ c2 :: C)) st = some st1 ∧
      st1.world.entries = st.world.entries ++ new ∧
      new.filter (isFullOf fi1.key) = [Entry.full t1 fi1] ∧
      new.filter (isLinkTo t1) = [Entry.hardlink t2 t1] := by
  have hJ0 : OnlyKey fi1.key t1 st.SeenFiles := by
    rw [hseen]; intro k1 n h; simp [lookupSeen] at h
  -- the records before `c1`
  obtain ⟨sA, newA, hlA, heA, hfA, hhA, hJA, hkA⟩ :=
    exportLoop_others fs dir fi1.key t1 A hA st hJ0
  have hnone : lookupSeen fi1.key sA.SeenFiles = none := by
    rw [hkA, hseen]; rfl
  -- the record `c1`
  obtain ⟨s1, hst1, hw1, hse1⟩ := exportStep_spec_add fs dir sA c1 t1 hk1 hp1
  rw [spec_add_first fs sA.world sA.SeenFiles _ t1 fi1 hs1 hreg1 hnone hnl] at hw1 hse1
  simp only at hw1 hse1
  have hJ1 : OnlyKey fi1.key t1 s1.SeenFiles := by
    rw [hse1]
    intro k1 n hlook hn
    simp only [lookupSeen] at hlook
    by_cases h1 : fi1.key = k1
    · exact h1.symm
    · rw [if_neg h1] at hlook
      exact hJA k1 n hlook hn
  have hsome1 : lookupSeen fi1.key s1.SeenFiles = some t1 := by
    rw [hse1]; simp [lookupSeen]
  -- the records between `c1` and `c2`
  obtain ⟨sB, newB, hlB, heB, hfB, hhB, hJB, hkB⟩ :=
    exportLoop_others fs dir fi1.key t1 B hB s1 hJ1
  -- the record `c2`
  obtain ⟨s2, hst2, hw2, hse2⟩ := exportStep_spec_add fs dir sB c2 t2 hk2 hp2
  rw [spec_add_second fs sB.world sB.SeenFiles _ t2 t1 fi2 hs2 hreg2
    (by rw [hkey, hkB, hsome1])] at hw2 hse2
  simp only at hw2 hse2
  -- the records behind `c2`
  obtain ⟨sC, newC, hlC, heC, hfC, hhC, _, _⟩ :=
    exportLoop_others fs dir fi1.key t1 C hC s2 (by rw [hse2]; exact hJB)
  refine ⟨sC, newA ++ [Entry.full t1 fi1] ++ newB ++ [Entry.hardlink t2 t1] ++ newC,
    ?_, ?_, ?_, ?_⟩
  · rw [exportLoop_append _ _ _ _ _ _ hlA]
    rw [exportLoop_cons_some _ _ _ _ _ _ hst1, exportLoop_append _ _ _ _ _ _ hlB,
      exportLoop_cons_some _ _ _ _ _ _ hst2, hlC]
  · rw [heC, hw2, heB, hw1, heA]
    simp
  · simp [List.filter_append, hfA, hfB, hfC, List.filter, isFullOf, hreg1]
  · simp [List.filter_append, hhA, hhB, hhC, List.filter, isLinkTo, isFullOf]

theorem pathLT_ne (a b : Change) (h : pathLT a b) : a.Path ≠ b.Path := by
  intro he
  unfold pathLT changesByPath.Less at h
  rw [he, strLess_irrefl] at h
  exact absurd h (by decide)

/-- In a strictly sorted list the smaller of two members comes first. -/
theorem sorted_split (L : List Change) (hs : L.Pairwise pathLT) (c1 c2 : Change)
    (h1 : c1 ∈ L) (h2 : c2 ∈ L) (hlt : pathLT c1 c2) :
    ∃ A B C, L = A ++ c1 :: (B ++ c2 :: C) := by
  obtain ⟨A, rest, rfl⟩ := List.append_of_mem h1
  rw [List.pairwise_append] at hs
  obtain ⟨_, _, hAc⟩ := hs
  rcases List.mem_append.mp h2 with h | h
  · exact absurd rfl (pathLT_ne _ _ (pathLT_antisymm c1 c2 hlt
      (hAc c2 h c1 (List.mem_cons_self _ _)) ▸ hlt))
  · rcases List.mem_cons.mp h with h | h
    · exact absurd (congrArg Change.Path h).symm (pathLT_ne _ _ hlt)
    · obtain ⟨B, C, rfl⟩ := List.append_of_mem h
      exact ⟨A, B, C, rfl⟩

/-- The export of a change list in which `c1` and `c2` name the same regular
file and no other record does, from any world. -/
theorem export_linked (fs : List Char → Option FileInfo) (dir : List Char)
    (changes : List Change) (c1 c2 : Change) (fi1 fi2 : FileInfo)
    (hd : (changes.map Change.Path).Nodup) (hr : ∀ c ∈ changes, ∃ t, c.Path = '/' :: t)
    (h1 : c1 ∈ changes) (h2 : c2 ∈ changes)
    (hk1 : c1.Kind ≠ ChangeType.ChangeDelete) (hk2 : c2.Kind ≠ ChangeType.ChangeDelete)
    (hlt : strLess c1.Path c2.Path = true)
    (hs1 : fs (Join [dir, c1.Path]) = some fi1) (hs2 : fs (Join [dir, c2.Path]) = some fi2)
    (hreg1 : fi1.kind = FileKind.regular) (hreg2 : fi2.kind = FileKind.regular)
    (hkey : fi1.key = fi2.key) (hnl : 1 < fi1.nlink)
    (ho : ∀ c ∈ changes, c ≠ c1 → c ≠ c2 → c.Kind ≠ ChangeType.ChangeDelete →
      ∀ fi, fs (Join [dir, c.Path]) = some fi → fi.kind = FileKind.regular →
        fi.key ≠ fi1.key)
    (w : TarStream) :
    ∃ st new, exportGoroutine (specLib fs) dir changes w = some st ∧
      st.world.entries = w.entries ++ new ∧
      new.filter (isFullOf fi1.key) = [Entry.full c1.Path.tail fi1] ∧
      new.filter (isLinkTo c1.Path.tail) = [Entry.hardlink c2.Path.tail c1.Path.tail] := by
  have hs := sortSort_strict changes hd
  have hmem : ∀ c, c ∈ sortSort changes ↔ c ∈ changes := fun c =>
    (sortSort_perm changes).mem_iff
  obtain ⟨A, B, C, hL⟩ := sorted_split (sortSort changes) hs c1 c2
    ((hmem c1).mpr h1) ((hmem c2).mpr h2) hlt
  obtain ⟨t1, ht1⟩ := hr c1 h1
  obtain ⟨t2, ht2⟩ := hr c2 h2
  have hp : List.Pairwise pathLT (sortSort changes) := hs
  rw [hL, List.pairwise_append, List.pairwise_cons, List.pairwise_append,
    List.pairwise_cons] at hp
  obtain ⟨_, ⟨hc1, _, ⟨hc2, _⟩, hBc⟩, hAc⟩ := hp
  have other : ∀ x, x ∈ sortSort changes → x.Path ≠ c1.Path → x.Path ≠ c2.Path →
      (∃ t, x.Path = '/' :: t) ∧ x.Path.tail ≠ t1 ∧
      (x.Kind ≠ ChangeType.ChangeDelete →
        ∀ fi, fs (Join [dir, x.Path]) = some fi → fi.kind = FileKind.regular →
          fi.key ≠ fi1.key) := by
    intro x hx hx1 hx2
    have hxc := (hmem x).mp hx
    obtain ⟨t, ht⟩ := hr x hxc
    refine ⟨⟨t, ht⟩, ?_, ?_⟩
    · intro h
      apply hx1
      rw [ht, ht1]
      rw [ht] at h
      simp only [List.tail_cons] at h
      rw [h]
    · intro hk
      exact ho x hxc (fun h => hx1 (by rw [h])) (fun h => hx2 (by rw [h])) hk
  have hA : Others fs dir fi1.key t1 A := by
    intro x hx
    have hxL : x ∈ sortSort changes := by rw [hL]; exact List.mem_append_left _ hx
    exact other x hxL (pathLT_ne _ _ (hAc x hx c1 (List.mem_cons_self _ _)))
      (pathLT_ne _ _ (hAc x hx c2
        (List.mem_cons_of_mem _ (List.mem_append_right _ (List.mem_cons_self _ _)))))
  have hB : Others fs dir fi1.key t1 B := by
    intro x hx
    have hxL : x ∈ sortSort changes := by
      rw [hL]
      exact List.mem_append_right _ (List.mem_cons_of_mem _ (List.mem_append_left _ hx))
    exact other x hxL (pathLT_ne _ _ (hc1 x (List.mem_append_left _ hx))).symm
      (pathLT_ne _ _ (hBc x hx c2 (List.mem_cons_self _ _)))
  have hC : Others fs dir fi1.key t1 C := by
    intro x hx
    have hxL : x ∈ sortSort changes := by
      rw [hL]
      exact List.mem_append_right _ (List.mem_cons_of_mem _
        (List.mem_append_right _ (List.mem_cons_of_mem _ hx)))
    exact other x hxL
      (pathLT_ne _ _ (hc1 x (List.mem_append_right _ (List.mem_cons_of_mem _ hx)))).symm
      (pathLT_ne _ _ (hc2 x hx)).symm
  obtain ⟨st1, new, hl, he, hf, hh⟩ := exportLoop_linked fs dir A B C c1 c2 t1 t2 fi1 fi2
    ht1 ht2 hk1 hk2 hs1 hs2 hreg1 hreg2 hkey.symm hnl hA hB hC
    { world := w, SeenFiles := [], events := [], logs := [], wrerr := none } rfl
  refine ⟨exportFinish (specLib fs) st1, new, ?_, ?_, ?_, ?_⟩
  · unfold exportGoroutine
    simp only [hL, hl]
  · simpa [exportFinish, specLib] using he
  · rw [ht1]; exact hf
  · rw [ht1, ht2]; exact hh

/-- C3: for every export whose change list (pairwise distinct paths that begin
with the separator) holds two Added or Modified paths that name the same
regular file with more than one link, and no other such path of that file,
the entries emitted hold exactly one standard entry of the file, named after
the path that sorts first, and exactly one hardlink entry that refers to that
name, named after the other path.  The map from IdentityKey to name starts
empty in every call: a second export, run in the world the first one left,
emits the standard entry and the hardlink entry once more. -/
theorem hardlink_dedup (fs : List Char → Option FileInfo) (dir : List Char)
    (changes : List Change) (c1 c2 : Change) (fi1 fi2 : FileInfo)
    (hd : (changes.map Change.Path).Nodup) (hr : ∀ c ∈ changes, ∃ t, c.Path = '/' :: t)
    (h1 : c1 ∈ changes) (h2 : c2 ∈ changes)
    (hk1 : c1.Kind ≠ ChangeType.ChangeDelete) (hk2 : c2.Kind ≠ ChangeType.ChangeDelete)
    (hlt : strLess c1.Path c2.Path = true)
    (hs1 : fs (Join [dir, c1.Path]) = some fi1) (hs2 : fs (Join [dir, c2.Path]) = some fi2)
    (hreg1 : fi1.kind = FileKind.regular) (hreg2 : fi2.kind = FileKind.regular)
    (hkey : fi1.key = fi2.key) (hnl : 1 < fi1.nlink)
    (ho : ∀ c ∈ changes, c ≠ c1 → c ≠ c2 → c.Kind ≠ ChangeType.ChangeDelete →
      ∀ fi, fs (Join [dir, c.Path]) = some fi → fi.kind = FileKind.regular →
        fi.key ≠ fi1.key)
    (w : TarStream) :
    ∃ st new, exportGoroutine (specLib fs) dir changes w = some st ∧
      st.world.entries = w.entries ++ new ∧
      new.filter (isFullOf fi1.key) = [Entry.full c1.Path.tail fi1] ∧
      new.filter (isLinkTo c1.Path.tail) = [Entry.hardlink c2.Path.tail c1.Path.tail] ∧
      ∃ st2 new2, exportGoroutine (specLib fs) dir changes st.world = some st2 ∧
        st2.world.entries = st.world.entries ++ new2 ∧
        new2.filter (isFullOf fi1.key) = [Entry.full c1.Path.tail fi1] ∧
        new2.filter (isLinkTo c1.Path.tail) =
          [Entry.hardlink c2.Path.tail c1.Path.tail] := by
  obtain ⟨st, new, ha, hb, hc, hd1⟩ := export_linked fs dir changes c1 c2 fi1 fi2 hd hr h1 h2
    hk1 hk2 hlt hs1 hs2 hreg1 hreg2 hkey hnl ho w
  exact ⟨st, new, ha, hb, hc, hd1,
    export_linked fs dir changes c1 c2 fi1 fi2 hd hr h1 h2 hk1 hk2 hlt hs1 hs2 hreg1 hreg2
      hkey hnl ho st.world⟩

/-- Scenario D of the spec with a directory and a deleted path beside it: the
file is emitted once in full under its first name and once as a hardlink. -/
theorem linked_export_entries :
    entriesOf (exportGoroutine (specLib linkedFs) "/x".toList linkedChanges
        { clock := 0, entries := [] }) =
      some [Entry.full "a".toList linkedInfo,
            Entry.hardlink "b".toList "a".toList,
            Entry.whiteout
              { Name := ".wh.c".toList, Size := 0, ModTime := 0, AccessTime := 0,
                ChangeTime := 0 },
            Entry.full "d".toList
              { kind := FileKind.directory, key := 3, nlink := 2, content := [] }] := by
  decide!

/-- Witness of C3: the two names `/a` and `/b` of the linked file among the
changes of the linked filesystem. -/
theorem hardlink_dedup_witness :
    (linkedFs (Join ["/x".toList, "/a".toList]) = some linkedInfo ∧
      linkedFs (Join ["/x".toList, "/b".toList]) = some linkedInfo) ∧
    ∃ st new, exportGoroutine (specLib linkedFs) "/x".toList linkedChanges
        { clock := 0, entries := [] } = some st ∧
      st.world.entries = [] ++ new ∧
      new.filter (isFullOf 7) = [Entry.full "a".toList linkedInfo] ∧
      new.filter (isLinkTo "a".toList) = [Entry.hardlink "b".toList "a".toList] ∧
      ∃ st2 new2, exportGoroutine (specLib linkedFs) "/x".toList linkedChanges
          st.world = some st2 ∧
        st2.world.entries = st.world.entries ++ new2 ∧
        new2.filter (isFullOf 7) = [Entry.full "a".toList linkedInfo] ∧
        new2.filter (isLinkTo "a".toList) = [Entry.hardlink "b".toList "a".toList] :=
  ⟨⟨by decide!, by decide!⟩,
    hardlink_dedup linkedFs "/x".toList linkedChanges
      { Path := "/a".toList, Kind := ChangeType.ChangeModify }
      { Path := "/b".toList, Kind := ChangeType.ChangeAdd } linkedInfo linkedInfo
      (by decide)
      (by
        intro c hc
        simp only [linkedChanges, List.mem_cons, List.mem_singleton, List.not_mem_nil,
          or_false] at hc
        rcases hc with rfl | rfl | rfl | rfl <;> exact ⟨_, rfl⟩)
      (by decide) (by decide) (by decide) (by decide) (by decide) (by decide!) (by decide!)
      rfl rfl rfl (by decide)
      (by
        intro c hc hc1 hc2 hk fi hfs hreg
        simp only [linkedChanges, List.mem_cons, List.mem_singleton, List.not_mem_nil,
          or_false] at hc
        rcases hc with rfl | rfl | rfl | rfl
        · exact absurd rfl hc2
        · exact absurd rfl hk
        · exact absurd rfl hc1
        · have h : linkedFs (Join ["/x".toList, "/d".toList]) =
              some { kind := FileKind.directory, key := 3, nlink := 2, content := [] } := by
            decide!
          rw [h] at hfs
          simp only [Option.some.injEq] at hfs
          rw [← hfs] at hreg
          exact absurd hreg (by decide))
      { clock := 0, entries := [] }⟩

end ImageTools
